import Mathlib

/-!
Latin Flashcard Trainer: macron input and answer checking.

A shallow embedding of the two pieces of logic of `script.js`:

* the `input` listener installed by `addMacronSupport` (lines 65-121), which rewrites
  `(a)`-style shorthand and bare capital vowels into macroned vowels and moves the cursor;
* the `click` listener of the check button (lines 217-338), which compares the submitted
  principal parts, gender and part of speech with the current dictionary entry.

A JavaScript string is modelled by the list of its UTF-16 code units.  Every code unit the
program tests for or produces lies in the Basic Multilingual Plane, so a code unit is
represented by a `Char`.
-/

namespace LatinTrainer

/-- A JavaScript string: the list of its code units. -/
abbrev JsString := List Char

/-! ## String built-ins used by the program -/

/-- The scan behind `String.prototype.replaceAll` with a string pattern: occurrences are
taken leftmost-first and do not overlap.  The first argument counts the characters of the
occurrence just replaced that are still to be skipped.  (The pattern is non-empty at every
call site of the program.) -/
def replaceAllFrom (pattern replacement : JsString) : Nat → JsString → JsString
  | _, [] => []
  | skip + 1, _ :: cs => replaceAllFrom pattern replacement skip cs
  | 0, c :: cs =>
    if pattern.isPrefixOf (c :: cs) then
      replacement ++ replaceAllFrom pattern replacement (pattern.length - 1) cs
    else c :: replaceAllFrom pattern replacement 0 cs

/-- The call `s.replaceAll(pattern, replacement)` for string arguments. -/
def replaceAll (s pattern replacement : JsString) : JsString :=
  replaceAllFrom pattern replacement 0 s

/-- Search of `pattern` in the suffix `rest` of a string, `pos` being the index at which
`rest` starts in the whole string. -/
def indexOfFrom (pattern : JsString) : JsString → Nat → Option Nat
  | [], pos => if pattern.isPrefixOf [] then some pos else none
  | c :: cs, pos =>
    if pattern.isPrefixOf (c :: cs) then some pos else indexOfFrom pattern cs (pos + 1)

/-- The call `s.indexOf(pattern, position)`; `none` stands for the result `-1`. -/
def indexOf (s pattern : JsString) (position : Nat) : Option Nat :=
  indexOfFrom pattern (s.drop position) (min position s.length)

/-- The call `s.includes(pattern)`. -/
def includes (s pattern : JsString) : Bool :=
  (indexOf s pattern 0).isSome

/-- The call `s.startsWith(pattern)`. -/
def startsWith (s pattern : JsString) : Bool :=
  pattern.isPrefixOf s

/-- White space and line terminators of ECMAScript, the characters `trim` strips. -/
def isWhiteSpace (c : Char) : Bool :=
  decide (c.toNat ∈ [0x9, 0xA, 0xB, 0xC, 0xD, 0x20, 0xA0, 0x1680, 0x2028, 0x2029,
    0x202F, 0x205F, 0x3000, 0xFEFF]) || (decide (0x2000 ≤ c.toNat) && decide (c.toNat ≤ 0x200A))

/-- The call `s.trim()`. -/
def trim (s : JsString) : JsString :=
  (s.dropWhile isWhiteSpace).rdropWhile isWhiteSpace

/-- The letters `A`-`Z` (code units 65 to 90). -/
def isUpperLetter (c : Char) : Bool :=
  decide (65 ≤ c.toNat) && decide (c.toNat ≤ 90)

/-- The letters `a`-`z` (code units 97 to 122). -/
def isLowerLetter (c : Char) : Bool :=
  decide (97 ≤ c.toNat) && decide (c.toNat ≤ 122)

/-- The digits `0`-`9` (code units 48 to 57). -/
def isDigit (c : Char) : Bool :=
  decide (48 ≤ c.toNat) && decide (c.toNat ≤ 57)

/-- Lower-case mapping of one code unit: the letters `A`-`Z`, and the five macroned
capitals the program itself can put into an input.  Other code units are kept; the rest of
the Unicode case tables is not part of the program. -/
def lowerCaseChar (c : Char) : Char :=
  if isUpperLetter c then Char.ofNat (c.toNat + 32)
  else if c = 'Ā' then 'ā'
  else if c = 'Ē' then 'ē'
  else if c = 'Ī' then 'ī'
  else if c = 'Ō' then 'ō'
  else if c = 'Ū' then 'ū'
  else c

/-- The call `s.toLowerCase()`. -/
def toLowerCase (s : JsString) : JsString :=
  s.map lowerCaseChar

/-- The call `s.split(sep)` for a one-character separator. -/
def split (sep : Char) : JsString → List JsString
  | [] => [[]]
  | c :: cs =>
    if c = sep then [] :: split sep cs
    else
      match split sep cs with
      | [] => [[c]]
      | piece :: pieces => (c :: piece) :: pieces

/-! ## Regular expression `\bvariation\b` with flag `i` -/

/-- Word characters of `\b` and `\w` without the `u` flag: `[A-Za-z0-9_]`. -/
def isWordChar (c : Char) : Bool :=
  isUpperLetter c || isLowerLetter c || isDigit c || c == '_'

/-- The abstract operation `IsWordChar(e)` of the regular expression semantics: false
before the first and after the last character of the input. -/
def isWordCharAt (input : JsString) : Option Nat → Bool
  | none => false
  | some e =>
    match input.get? e with
    | none => false
    | some c => isWordChar c

/-- The assertion `\b` at index `e` of `input`. -/
def wordBoundaryAt (input : JsString) (e : Nat) : Bool :=
  xor (isWordCharAt input (if e = 0 then none else some (e - 1))) (isWordCharAt input (some e))

/-- Canonicalisation of the `i` flag.  A code unit outside ASCII is never canonicalised
to an ASCII one, so for the ASCII characters of a pattern only `a`-`z` fold to `A`-`Z`. -/
def canonicalize (c : Char) : Char :=
  if isLowerLetter c then Char.ofNat (c.toNat - 32) else c

/-- The pattern characters `variation` match the input at its start, ignoring case. -/
def matchIgnoreCase : JsString → JsString → Bool
  | [], _ => true
  | _ :: _, [] => false
  | p :: ps, c :: cs => canonicalize p == canonicalize c && matchIgnoreCase ps cs

/-- The pattern `\bvariation\b` matches `input` starting at index `i`.  The characters of
`variation` are taken literally, which is what the regular expression does when
`variation` holds no metacharacter, as is the case for every part of speech of the
program. -/
def wholeWordMatchAt (variation input : JsString) (i : Nat) : Bool :=
  wordBoundaryAt input i && matchIgnoreCase variation (input.drop i) &&
    wordBoundaryAt input (i + variation.length)

/-- The call `new RegExp("\\b" + variation + "\\b", "i").test(input)`: a match is tried at
every index of the input. -/
def regexTest (variation input : JsString) : Bool :=
  (List.range (input.length + 1)).any (wholeWordMatchAt variation input)

/-! ## Macron helpers (lines 55-121) -/

/-- The table `vowels`, in the order of its keys. -/
def vowels : List (Char × Char) :=
  [('a', 'ā'), ('e', 'ē'), ('i', 'ī'), ('o', 'ō'), ('u', 'ū'),
   ('A', 'Ā'), ('E', 'Ē'), ('I', 'Ī'), ('O', 'Ō'), ('U', 'Ū')]

/-- The table `capitalToMacron`, in the order of its keys. -/
def capitalToMacron : List (Char × Char) :=
  [('A', 'ā'), ('E', 'ē'), ('I', 'ī'), ('O', 'ō'), ('U', 'ū')]

/-- The template literal that wraps a key of `vowels` in parentheses. -/
def parenPattern (key : Char) : JsString := ['(', key, ')']

/-- First loop of the listener (lines 71-75): one `replaceAll` per entry of `vowels`. -/
def parenPass (val : JsString) : JsString :=
  vowels.foldl (fun v entry => replaceAll v (parenPattern entry.1) [entry.2]) val

/-- Second loop of the listener (lines 77-79): one `replaceAll` per entry of
`capitalToMacron`. -/
def capitalPass (val : JsString) : JsString :=
  capitalToMacron.foldl (fun v entry => replaceAll v [entry.1] [entry.2]) val

/-- The value the listener computes from the content of the input (lines 67-79). -/
def macronText (value : JsString) : JsString :=
  capitalPass (parenPass value)

/-- The `while` loop of lines 94-102 and 108-115, with state `searchIndex` and `offset`.
Each turn looks for the next occurrence of `pattern` in `original`; an occurrence that ends
at or before `start` adds `pattern.length - char.length` to the offset.  The first argument
bounds the number of turns; `none` means the bound was reached. -/
def offsetLoop (original pattern char : JsString) (start : Nat) :
    Nat → Nat → Int → Option Int
  | 0, _, _ => none
  | fuel + 1, searchIndex, offset =>
    match indexOf original pattern searchIndex with
    | none => some offset
    | some m =>
      offsetLoop original pattern char start fuel (m + pattern.length)
        (if m + pattern.length ≤ start then
          offset + ((pattern.length : Int) - (char.length : Int))
        else offset)

/-- A `for … of Object.entries(table)` loop around `offsetLoop` (lines 90-103 with
`mkPattern = parenPattern`, lines 105-116 with the key itself as pattern). -/
def offsetPass (original : JsString) (start : Nat) (mkPattern : Char → JsString) :
    List (Char × Char) → Int → Option Int
  | [], offset => some offset
  | entry :: rest, offset =>
    match offsetLoop original (mkPattern entry.1) [entry.2] start
        (original.length + 1) 0 offset with
    | none => none
    | some offset1 => offsetPass original start mkPattern rest offset1

/-- What the listener leaves in the input: its text and the cursor position. -/
structure EditResult where
  text : JsString
  cursor : Int
  deriving DecidableEq

/-- The `input` listener installed by `addMacronSupport`: `value` is the content of the
input and `start` its `selectionStart`.  When the two passes change nothing the input is
left as it is. -/
def addMacronSupport (value : JsString) (start : Nat) : Option EditResult :=
  let original := value
  let val := macronText value
  if val ≠ original then
    match offsetPass original start parenPattern vowels 0 with
    | none => none
    | some offset1 =>
      match offsetPass original start (fun cap => [cap]) capitalToMacron offset1 with
      | none => none
      | some offset => some ⟨val, max 0 ((start : Int) - offset)⟩
  else some ⟨original, (start : Int)⟩

/-- The click listener of a macron button (lines 131-146): the selection `[start, end)`
is replaced by `char`, and the cursor is put right after `start`. -/
def macronButtonClick (val : JsString) (start stop : Nat) (char : JsString) : EditResult :=
  ⟨val.take start ++ char ++ val.drop stop, (start : Int) + 1⟩

/-! ## Answer checking (lines 217-338) -/

/-- An entry of the word list.  `gender` and `pos` may be missing. -/
structure DictionaryEntry where
  latin : JsString
  translation : JsString
  gender : Option JsString
  pos : Option JsString
  deriving DecidableEq

/-- The facts the check computes about a submission. -/
structure Verdict where
  allPartsCorrect : Bool
  incorrectIndices : List Nat
  isGenderCorrect : Bool
  isPosCorrect : Bool
  isCorrect : Bool
  targetGender : JsString
  targetPos : JsString
  deriving DecidableEq

/-- The flag `hasAnyInput` (lines 224-229). -/
def hasAnyInput (userInputs : List JsString) : Bool :=
  userInputs.any (fun value => trim value ≠ [])

/-- The guard of line 231: nothing was entered in any field. -/
def needsInput (userInputs : List JsString) (userGender userPos : JsString) : Bool :=
  !hasAnyInput userInputs && userGender == [] && userPos == []

/-- The list `targetParts` (line 239). -/
def targetParts (word : DictionaryEntry) : List JsString :=
  (split ',' word.latin).map (fun s => toLowerCase (trim s))

/-- The test `match` of line 254 for one input. -/
def partMatches (value target : JsString) : Bool :=
  let val := toLowerCase (trim value)
  val == target || (startsWith target ['-'] && val == target.drop 1)

/-- The `forEach` of lines 248-263 from index `index` on, with the state
`(allPartsCorrect, incorrectIndices)`. -/
def checkPartsFrom : Nat → List JsString → List JsString → Bool × List Nat → Bool × List Nat
  | index, value :: values, target :: targets, state =>
    if !partMatches value target then
      checkPartsFrom (index + 1) values targets (false, state.2 ++ [index + 1])
    else checkPartsFrom (index + 1) values targets state
  | _, _, _, state => state

/-- Validation of the Latin parts (lines 238-264): `(allPartsCorrect, incorrectIndices)`. -/
def checkParts (userInputs targets : List JsString) : Bool × List Nat :=
  if userInputs.length ≠ targets.length then (false, [])
  else checkPartsFrom 0 userInputs targets (true, [])

/-- The variable `targetGender` (lines 267-268). -/
def targetGender (word : DictionaryEntry) : JsString :=
  let g : JsString :=
    match word.gender with
    | some gender => if gender ≠ [] then trim gender else "none".toList
    | none => "none".toList
  if g = [] then "none".toList else g

/-- The variable `targetPos` right after line 272. -/
def normalizedPos (word : DictionaryEntry) : JsString :=
  match word.pos with
  | some pos => if pos ≠ [] then toLowerCase (trim pos) else []
  | none => []

/-- The variable `targetPos` after the chant detection (lines 272-278). -/
def targetPos (word : DictionaryEntry) : JsString :=
  if includes (toLowerCase word.translation) "chant".toList ||
      (normalizedPos word == [] && startsWith word.latin ['-']) then
    "chant".toList
  else normalizedPos word

/-- The table `posVariations` (lines 285-295). -/
def posVariations : List (JsString × List JsString) :=
  [("noun".toList, ["noun".toList]),
   ("verb".toList, ["verb".toList]),
   ("adjective".toList, ["adjective".toList, "adj".toList]),
   ("adverb".toList, ["adverb".toList, "adv".toList]),
   ("preposition".toList, ["preposition".toList, "prep".toList]),
   ("conjunction".toList, ["conjunction".toList, "conj".toList]),
   ("pronoun".toList, ["pronoun".toList]),
   ("interjection".toList, ["interjection".toList]),
   ("chant".toList, ["chant".toList])]

/-- The list `variations` (line 298): the entry of the table for the lower-cased
selection, or the selection alone. -/
def variations (userPos : JsString) : List JsString :=
  let userPosValue := toLowerCase userPos
  match posVariations.lookup userPosValue with
  | some vs => vs
  | none => [userPosValue]

/-- The flag `isPosCorrect` (lines 280-309) against a given `targetPos`. -/
def isPosCorrect (target userPos : JsString) : Bool :=
  if userPos ≠ [] then (variations userPos).any (fun variation => regexTest variation target)
  else false

/-- What a click on the check button does: the verdict shown, if any, and the score. -/
structure CheckOutcome where
  verdict : Option Verdict
  score : Nat
  deriving DecidableEq

/-- The click listener of the check button, up to the computation of `isCorrect` and the
update of `score` (lines 217-315).  `word` is the current entry, `userInputs` the values of
the part inputs in order, `userGender` and `userPos` the values of the two selects. -/
def checkBtnClick (score : Nat) (word : DictionaryEntry) (userInputs : List JsString)
    (userGender userPos : JsString) : CheckOutcome :=
  if needsInput userInputs userGender userPos then ⟨none, score⟩
  else
    let parts := checkParts userInputs (targetParts word)
    let genderOk : Bool := userGender == targetGender word
    let posOk := isPosCorrect (targetPos word) userPos
    let isCorrect := parts.1 && genderOk && posOk
    ⟨some ⟨parts.1, parts.2, genderOk, posOk, isCorrect, targetGender word, targetPos word⟩,
      if isCorrect then score + 1 else score⟩

/-! ## Reference descriptions used in the proofs -/

/-- The macron for the parenthesised key that `s` starts with, if it starts with one. -/
def matchKey (tbl : List (Char × Char)) : JsString → Option Char
  | c :: key :: d :: _ => if c = '(' ∧ d = ')' then tbl.lookup key else none
  | _ => none

/-- One scan that replaces the parenthesised keys of `tbl` all at once.  The first
argument counts the characters of the occurrence just replaced that are still to be
skipped. -/
def scanFrom (tbl : List (Char × Char)) : Nat → JsString → JsString
  | _, [] => []
  | skip + 1, _ :: cs => scanFrom tbl skip cs
  | 0, c :: cs =>
    match matchKey tbl (c :: cs) with
    | some m => m :: scanFrom tbl 2 cs
    | none => c :: scanFrom tbl 0 cs

/-- The scan from the start of the string. -/
def scan (tbl : List (Char × Char)) (s : JsString) : JsString :=
  scanFrom tbl 0 s

/-- What the second loop of the listener makes of one character. -/
def capitalChar (c : Char) : Char :=
  capitalToMacron.foldl (fun d entry => if d = entry.1 then entry.2 else d) c

/-- Number of indices at which `pattern` occurs in `s`. -/
def countOcc (pattern : JsString) : JsString → Nat
  | [] => 0
  | c :: cs => (if pattern.isPrefixOf (c :: cs) then 1 else 0) + countOcc pattern cs

/-- Number of occurrences of `pattern` in the suffix `rest`, which starts at index `pos`
of the whole string, that end at or before `start`. -/
def countEndingBy (pattern : JsString) (start : Nat) : JsString → Nat → Nat
  | [], _ => 0
  | c :: cs, pos =>
    (if pattern.isPrefixOf (c :: cs) ∧ pos + pattern.length ≤ start then 1 else 0) +
      countEndingBy pattern start cs (pos + 1)

/-- Number of occurrences in `s` of the parenthesised keys of `tbl`. -/
def sumOcc (tbl : List (Char × Char)) (s : JsString) : Nat :=
  (tbl.map (fun entry => countOcc (parenPattern entry.1) s)).sum

/-! ## Evaluation on the examples of the specification -/

example : addMacronSupport "(a)".toList 3 = some ⟨"ā".toList, 1⟩ := by decide
example : addMacronSupport "rosA".toList 4 = some ⟨"rosā".toList, 4⟩ := by decide
example : addMacronSupport "(a)(e)".toList 6 = some ⟨"āē".toList, 2⟩ := by decide
example : addMacronSupport "(a)".toList 2 = some ⟨"ā".toList, 2⟩ := by decide
example : isPosCorrect "3rd conjugation verb, deponent".toList "verb".toList = true := by decide
example : isPosCorrect "adverbial".toList "adverb".toList = false := by decide
example : isPosCorrect "adverb".toList "verb".toList = false := by decide
example : toLowerCase (trim "  Porto \n".toList) = "porto".toList := by decide
example : split ',' "a, b,,c".toList = ["a".toList, " b".toList, [], "c".toList] := by decide


/-! ## Facts about the string built-ins -/

theorem all_of_all_dropWhile (p : Char → Bool) (s : JsString)
    (h : ∀ c ∈ s.dropWhile p, p c = true) : ∀ c ∈ s, p c = true := by
  induction s with
  | nil => simp
  | cons d s ih =>
    by_cases hd : p d = true
    · rw [List.dropWhile_cons_of_pos hd] at h
      intro c hc
      rcases List.mem_cons.1 hc with rfl | hc
      · exact hd
      · exact ih h c hc
    · rw [List.dropWhile_cons_of_neg hd] at h
      exact h

theorem trim_eq_nil_iff (s : JsString) : trim s = [] ↔ ∀ c ∈ s, isWhiteSpace c = true := by
  unfold trim
  rw [List.rdropWhile_eq_nil_iff]
  constructor
  · exact all_of_all_dropWhile _ s
  · intro h c hc
    exact h c ((List.dropWhile_sublist _).mem hc)

theorem trim_nil : trim [] = [] := rfl

theorem toLowerCase_eq_nil_iff (s : JsString) : toLowerCase s = [] ↔ s = [] := by
  simp [toLowerCase]

theorem hasAnyInput_eq_false_iff (userInputs : List JsString) :
    hasAnyInput userInputs = false ↔ ∀ p ∈ userInputs, ∀ c ∈ p, isWhiteSpace c = true := by
  unfold hasAnyInput
  rw [List.any_eq_false]
  constructor
  · intro h p hp
    have := h p hp
    simp only [ne_eq, decide_eq_true_eq, not_not] at this
    exact (trim_eq_nil_iff p).1 this
  · intro h p hp
    simp only [ne_eq, decide_eq_true_eq, not_not]
    exact (trim_eq_nil_iff p).2 (h p hp)

theorem needsInput_iff (userInputs : List JsString) (userGender userPos : JsString) :
    needsInput userInputs userGender userPos = true ↔
      (∀ p ∈ userInputs, ∀ c ∈ p, isWhiteSpace c = true) ∧ userGender = [] ∧ userPos = [] := by
  unfold needsInput
  rw [Bool.and_eq_true, Bool.and_eq_true, Bool.not_eq_true', hasAnyInput_eq_false_iff]
  simp [and_assoc]

theorem targetGender_eq (word : DictionaryEntry) :
    targetGender word =
      (match word.gender with
       | none => "none".toList
       | some gender => if trim gender = [] then "none".toList else trim gender) := by
  unfold targetGender
  cases hg : word.gender with
  | none => simp
  | some gender =>
    by_cases h0 : gender = []
    · subst h0; simp [trim_nil]
    · by_cases h1 : trim gender = []
      · simp [h0, h1]
      · simp [h0, h1]

theorem targetGender_ne_nil (word : DictionaryEntry) : targetGender word ≠ [] := by
  rw [targetGender_eq]
  cases word.gender with
  | none => simp
  | some gender =>
    by_cases h1 : trim gender = []
    · simp [h1]
    · simp [h1]

/-- C10. The expected gender computed by the check is never the empty string: it is
"none" when the gender of the entry is missing or empty after trimming and the trimmed
gender otherwise; the verdict carries that value, and a submission whose gender is the
empty string is never marked as having the right gender. -/
theorem expected_gender_never_empty (word : DictionaryEntry) :
    targetGender word ≠ [] ∧
    targetGender word =
      (match word.gender with
       | none => "none".toList
       | some gender => if trim gender = [] then "none".toList else trim gender) ∧
    ∀ (score : Nat) (userInputs : List JsString) (userGender userPos : JsString) (v : Verdict),
      (checkBtnClick score word userInputs userGender userPos).verdict = some v →
        v.targetGender = targetGender word ∧ v.targetGender ≠ [] ∧
        (userGender = [] → v.isGenderCorrect = false) := by
  have hne := targetGender_ne_nil word
  refine ⟨hne, targetGender_eq word, ?_⟩
  intro score userInputs userGender userPos v hv
  unfold checkBtnClick at hv
  by_cases hn : needsInput userInputs userGender userPos = true
  · simp [hn] at hv
  · simp only [hn, Bool.false_eq_true, if_false, Option.some.injEq] at hv
    subst hv
    refine ⟨rfl, hne, ?_⟩
    intro hg
    subst hg
    simp only [beq_eq_false_iff_ne, ne_eq]
    exact fun h => hne h.symm

/-- Witness for C10: an entry without gender, checked with the gender left empty. -/
theorem expected_gender_never_empty_witness :
    targetGender ⟨"porto".toList, "carry".toList, none, some "verb".toList⟩ = "none".toList ∧
    (checkBtnClick 0 ⟨"porto".toList, "carry".toList, none, some "verb".toList⟩
        ["porto".toList] [] "verb".toList).verdict =
      some ⟨true, [], false, true, false, "none".toList, "verb".toList⟩ ∧
    (⟨true, [], false, true, false, "none".toList, "verb".toList⟩ : Verdict).isGenderCorrect
      = false :=
  ⟨by decide, by decide,
    ((expected_gender_never_empty
        ⟨"porto".toList, "carry".toList, none, some "verb".toList⟩).2.2 0
      ["porto".toList] [] "verb".toList _ (by decide)).2.2 rfl⟩

theorem indexOfFrom_isSome_iff (pattern : JsString) (s : JsString) (pos : Nat) :
    (indexOfFrom pattern s pos).isSome = true ↔ pattern <:+: s := by
  induction s generalizing pos with
  | nil =>
    unfold indexOfFrom
    by_cases h : pattern.isPrefixOf [] = true
    · simp only [h, if_true, Option.isSome_some, true_iff]
      exact (List.isPrefixOf_iff_prefix.1 h).isInfix
    · simp only [h, Bool.false_eq_true, if_false, Option.isSome_none, false_iff]
      intro hin
      apply h
      rw [List.isPrefixOf_iff_prefix]
      rw [List.infix_nil] at hin
      subst hin
      exact List.nil_prefix
  | cons c cs ih =>
    unfold indexOfFrom
    by_cases h : pattern.isPrefixOf (c :: cs) = true
    · simp only [h, if_true, Option.isSome_some, true_iff]
      exact (List.isPrefixOf_iff_prefix.1 h).isInfix
    · simp only [h, Bool.false_eq_true, if_false]
      rw [ih, List.infix_cons_iff]
      constructor
      · exact Or.inr
      · rintro (hp | hi)
        · exact absurd (List.isPrefixOf_iff_prefix.2 hp) h
        · exact hi

theorem includes_iff (s pattern : JsString) : includes s pattern = true ↔ pattern <:+: s := by
  unfold includes indexOf
  simp only [List.drop_zero]
  exact indexOfFrom_isSome_iff pattern s _

/-- The lower-cased string contains `w` exactly when the string has a piece whose
lower-casing is `w`. -/
theorem includes_toLowerCase_iff (s w : JsString) :
    includes (toLowerCase s) w = true ↔
      ∃ pre mid post, s = pre ++ mid ++ post ∧ toLowerCase mid = w := by
  rw [includes_iff]
  constructor
  · rintro ⟨a, b, hab⟩
    unfold toLowerCase at hab
    obtain ⟨l₁, post, h1, h2, h3⟩ := List.map_eq_append_iff.1 hab.symm
    obtain ⟨pre, mid, h4, h5, h6⟩ := List.map_eq_append_iff.1 h2
    exact ⟨pre, mid, post, by rw [h1, h4], h6⟩
  · rintro ⟨pre, mid, post, rfl, rfl⟩
    exact ⟨toLowerCase pre, toLowerCase post, by simp [toLowerCase]⟩

theorem normalizedPos_eq (word : DictionaryEntry) :
    normalizedPos word =
      (match word.pos with
       | none => []
       | some pos => toLowerCase (trim pos)) := by
  unfold normalizedPos
  cases word.pos with
  | none => rfl
  | some pos =>
    by_cases h : pos = []
    · subst h; simp [trim_nil, toLowerCase]
    · simp [h]

theorem normalizedPos_eq_nil_iff (word : DictionaryEntry) :
    normalizedPos word = [] ↔ (word.pos = none ∨ ∃ pos, word.pos = some pos ∧ trim pos = []) := by
  rw [normalizedPos_eq]
  cases word.pos with
  | none => simp
  | some pos => simp [toLowerCase_eq_nil_iff]

/-- C5, as stated, fails: for an entry whose part of speech is "noun" and whose translation
contains "chant", the expected part of speech is "chant" although the part of speech of the
entry is not empty. -/
theorem chant_override_counterexample :
    ¬ (targetPos ⟨"carmen".toList, "chant, song".toList, none, some "noun".toList⟩
          = "chant".toList ↔
        (((⟨"carmen".toList, "chant, song".toList, none, some "noun".toList⟩ :
              DictionaryEntry).pos = none ∨
            ∃ pos, (⟨"carmen".toList, "chant, song".toList, none, some "noun".toList⟩ :
              DictionaryEntry).pos = some pos ∧ trim pos = []) ∧
          (includes (toLowerCase "chant, song".toList) "chant".toList = true ∨
            startsWith (trim ((split ',' "carmen".toList).headD [])) ['-'] = true))) := by
  intro h
  have h1 := h.1 (by decide)
  rcases h1.1 with h2 | ⟨pos, h2, h3⟩
  · simp at h2
  · simp only [Option.some.injEq] at h2
    subst h2
    revert h3
    decide

/-- C5, amended. The expected part of speech is the sentinel "chant" when the translation
contains "chant" in any letter case, whatever the part of speech of the entry, and when the
part of speech is missing or empty after trimming and `latin` itself starts with "-"; in
every other case it is the part of speech of the entry, trimmed and lower-cased. -/
theorem chant_override (word : DictionaryEntry) :
    (((∃ pre mid post, word.translation = pre ++ mid ++ post ∧
          toLowerCase mid = "chant".toList) ∨
        ((word.pos = none ∨ ∃ pos, word.pos = some pos ∧ trim pos = []) ∧
          ∃ rest, word.latin = '-' :: rest)) →
      targetPos word = "chant".toList) ∧
    (¬ ((∃ pre mid post, word.translation = pre ++ mid ++ post ∧
          toLowerCase mid = "chant".toList) ∨
        ((word.pos = none ∨ ∃ pos, word.pos = some pos ∧ trim pos = []) ∧
          ∃ rest, word.latin = '-' :: rest)) →
      targetPos word =
        (match word.pos with
         | none => []
         | some pos => toLowerCase (trim pos))) := by
  have hdash : startsWith word.latin ['-'] = true ↔ ∃ rest, word.latin = '-' :: rest := by
    unfold startsWith
    rw [List.isPrefixOf_iff_prefix]
    constructor
    · rintro ⟨t, ht⟩; exact ⟨t, ht.symm⟩
    · rintro ⟨t, ht⟩; exact ⟨t, ht.symm⟩
  rw [← includes_toLowerCase_iff, ← normalizedPos_eq_nil_iff, ← hdash, ← normalizedPos_eq]
  unfold targetPos
  constructor
  · intro h
    rw [if_pos]
    simpa using h
  · intro h
    rw [if_neg]
    simpa using h

/-- Witness for C5: the translation contains "Chant"; the part of speech is empty and
`latin` starts with "-"; neither. -/
theorem chant_override_witness :
    targetPos ⟨"gloria".toList, "a Chant of praise".toList, none, some "noun".toList⟩
      = "chant".toList ∧
    targetPos ⟨"-que".toList, "and (enclitic)".toList, none, some " ".toList⟩
      = "chant".toList ∧
    targetPos ⟨"porto".toList, "carry".toList, none, some " Verb".toList⟩ = "verb".toList :=
  ⟨(chant_override ⟨"gloria".toList, "a Chant of praise".toList, none,
      some "noun".toList⟩).1 (Or.inl ⟨"a ".toList, "Chant".toList, " of praise".toList,
        by decide, by decide⟩),
   (chant_override ⟨"-que".toList, "and (enclitic)".toList, none, some " ".toList⟩).1
      (Or.inr ⟨Or.inr ⟨" ".toList, rfl, by decide⟩, "que".toList, by decide⟩),
   by decide⟩

/-! ## Validation of the Latin parts -/

/-- State reached by the loop over the parts: the flag is true exactly when no index was
recorded, the recorded indices are increasing and at most `index`, and an index is recorded
exactly when its part does not match. -/
theorem checkPartsFrom_spec (values targets : List JsString) (index : Nat) (state : Bool × List Nat)
    (hlen : values.length = targets.length)
    (hflag : state.1 = true ↔ state.2 = [])
    (hsorted : state.2.Sorted (· < ·))
    (hbound : ∀ j ∈ state.2, j ≤ index) :
    ((checkPartsFrom index values targets state).1 = true ↔
        (checkPartsFrom index values targets state).2 = []) ∧
      (checkPartsFrom index values targets state).2.Sorted (· < ·) ∧
      (∀ j, j ∈ (checkPartsFrom index values targets state).2 ↔
        j ∈ state.2 ∨ ∃ i value target, j = index + i + 1 ∧ values[i]? = some value ∧
          targets[i]? = some target ∧ partMatches value target = false) := by
  induction values generalizing targets index state with
  | nil =>
    cases targets with
    | nil => simp [checkPartsFrom, hflag, hsorted]
    | cons t ts => simp at hlen
  | cons value values ih =>
    cases targets with
    | nil => simp at hlen
    | cons target targets =>
      have hlen' : values.length = targets.length := by simpa using hlen
      unfold checkPartsFrom
      by_cases hm : partMatches value target = true
      · simp only [hm, Bool.not_true, Bool.false_eq_true, if_false]
        obtain ⟨h1, h2, h3⟩ := ih targets (index + 1) state hlen' hflag hsorted
          (fun j hj => Nat.le_succ_of_le (hbound j hj))
        refine ⟨h1, h2, ?_⟩
        intro j
        rw [h3]
        constructor
        · rintro (hj | ⟨i, v, t, rfl, hv, ht, hf⟩)
          · exact Or.inl hj
          · exact Or.inr ⟨i + 1, v, t, by omega, by simpa using hv, by simpa using ht, hf⟩
        · rintro (hj | ⟨i, v, t, rfl, hv, ht, hf⟩)
          · exact Or.inl hj
          · cases i with
            | zero =>
              simp only [List.getElem?_cons_zero, Option.some.injEq] at hv ht
              subst hv; subst ht
              rw [hm] at hf; cases hf
            | succ i =>
              exact Or.inr ⟨i, v, t, by omega, by simpa using hv, by simpa using ht, hf⟩
      · have hm' : partMatches value target = false := by simpa using hm
        simp only [hm', Bool.not_false, if_true]
        obtain ⟨h1, h2, h3⟩ := ih targets (index + 1) (false, state.2 ++ [index + 1]) hlen'
          (by simp)
          (by
            simp only [List.Sorted]
            rw [List.pairwise_append]
            refine ⟨hsorted, List.pairwise_singleton _ _, ?_⟩
            intro a ha b hb
            have := hbound a ha
            simp only [List.mem_singleton] at hb
            omega)
          (by
            intro j hj
            rcases List.mem_append.1 hj with hj | hj
            · exact Nat.le_succ_of_le (hbound j hj)
            · simp only [List.mem_singleton] at hj; omega)
        refine ⟨h1, h2, ?_⟩
        intro j
        rw [h3]
        constructor
        · rintro (hj | ⟨i, v, t, rfl, hv, ht, hf⟩)
          · rcases List.mem_append.1 hj with hj | hj
            · exact Or.inl hj
            · simp only [List.mem_singleton] at hj
              exact Or.inr ⟨0, value, target, by omega, by simp, by simp, hm'⟩
          · exact Or.inr ⟨i + 1, v, t, by omega, by simpa using hv, by simpa using ht, hf⟩
        · rintro (hj | ⟨i, v, t, rfl, hv, ht, hf⟩)
          · exact Or.inl (List.mem_append_left _ hj)
          · cases i with
            | zero => exact Or.inl (List.mem_append_right _ (by simp))
            | succ i =>
              exact Or.inr ⟨i, v, t, by omega, by simpa using hv, by simpa using ht, hf⟩

/-- The test of one part, in words: the trimmed, lower-cased input equals the target, or
the target starts with "-" and the input equals the target without that hyphen. -/
theorem partMatches_iff (value target : JsString) :
    partMatches value target = true ↔
      (toLowerCase (trim value) = target ∨
        ∃ rest, target = '-' :: rest ∧ toLowerCase (trim value) = rest) := by
  unfold partMatches startsWith
  simp only [Bool.or_eq_true, Bool.and_eq_true, beq_iff_eq, List.isPrefixOf_iff_prefix]
  constructor
  · rintro (h | ⟨⟨t, ht⟩, h⟩)
    · exact Or.inl h
    · refine Or.inr ⟨t, ht.symm, ?_⟩
      rw [h, ← ht]; rfl
  · rintro (h | ⟨rest, h1, h2⟩)
    · exact Or.inl h
    · refine Or.inr ⟨⟨rest, h1.symm⟩, ?_⟩
      rw [h2, h1]; rfl

/-- C7. With `targetParts` the comma-separated pieces of `latin`, trimmed and lower-cased:
when the submission has as many parts as there are target parts, `incorrectIndices` is the
strictly increasing list of the 1-based indices whose trimmed, lower-cased part is neither
the target part nor the target part without its leading "-", and `allPartsCorrect` holds
exactly when that list is empty; when the numbers differ, `allPartsCorrect` is false and
`incorrectIndices` is empty. -/
theorem parts_matching (word : DictionaryEntry) (userInputs : List JsString) :
    targetParts word = (split ',' word.latin).map (fun s => toLowerCase (trim s)) ∧
    (userInputs.length = (targetParts word).length →
      (checkParts userInputs (targetParts word)).2.Sorted (· < ·) ∧
      (∀ j, j ∈ (checkParts userInputs (targetParts word)).2 ↔
        ∃ i value target, j = i + 1 ∧ userInputs[i]? = some value ∧
          (targetParts word)[i]? = some target ∧
          ¬ (toLowerCase (trim value) = target ∨
              ∃ rest, target = '-' :: rest ∧ toLowerCase (trim value) = rest)) ∧
      ((checkParts userInputs (targetParts word)).1 = true ↔
        (checkParts userInputs (targetParts word)).2 = [])) ∧
    (userInputs.length ≠ (targetParts word).length →
      checkParts userInputs (targetParts word) = (false, [])) := by
  refine ⟨rfl, ?_, ?_⟩
  · intro hlen
    unfold checkParts
    simp only [hlen, ne_eq, not_true_eq_false, if_false]
    obtain ⟨h1, h2, h3⟩ := checkPartsFrom_spec userInputs (targetParts word) 0 (true, []) hlen
      (by simp) (by simp) (by simp)
    refine ⟨h2, ?_, h1⟩
    intro j
    rw [h3]
    simp only [List.not_mem_nil, false_or, Nat.zero_add]
    constructor
    · rintro ⟨i, v, t, hj, hv, ht, hf⟩
      refine ⟨i, v, t, hj, hv, ht, ?_⟩
      rw [← partMatches_iff, hf]; simp
    · rintro ⟨i, v, t, hj, hv, ht, hf⟩
      refine ⟨i, v, t, hj, hv, ht, ?_⟩
      rw [← partMatches_iff] at hf
      simpa using hf
  · intro hlen
    unfold checkParts
    simp [hlen]

/-- Witness for C7: the target "-que" is matched by "que"; of three parts the second and
third are wrong; one part too many gives no index. -/
theorem parts_matching_witness :
    checkParts ["que".toList] (targetParts ⟨"-que".toList, "and (enclitic)".toList, none, none⟩)
      = (true, []) ∧
    checkParts ["Amo ".toList, "amo".toList, "x".toList]
        (targetParts ⟨"amo, amare, amavi".toList, "love".toList, none, some "verb".toList⟩)
      = (false, [2, 3]) ∧
    ((checkParts ["Amo ".toList, "amo".toList, "x".toList]
        (targetParts ⟨"amo, amare, amavi".toList, "love".toList, none,
          some "verb".toList⟩)).1 = true ↔
      (checkParts ["Amo ".toList, "amo".toList, "x".toList]
        (targetParts ⟨"amo, amare, amavi".toList, "love".toList, none,
          some "verb".toList⟩)).2 = []) ∧
    checkParts ["amo".toList, "amare".toList]
        (targetParts ⟨"amo".toList, "love".toList, none, some "verb".toList⟩) = (false, []) :=
  ⟨by decide, by decide,
   ((parts_matching ⟨"amo, amare, amavi".toList, "love".toList, none, some "verb".toList⟩
      ["Amo ".toList, "amo".toList, "x".toList]).2.1 (by decide)).2.2,
   (parts_matching ⟨"amo".toList, "love".toList, none, some "verb".toList⟩
      ["amo".toList, "amare".toList]).2.2 (by decide)⟩

/-! ## Letter case -/

theorem toNat_ofNat_of_lt (n : Nat) (h : n < 0xd800) : (Char.ofNat n).toNat = n := by
  unfold Char.ofNat
  have hv : n.isValidChar := Or.inl h
  rw [dif_pos hv]
  simp only [Char.ofNatAux, Char.toNat]
  show (BitVec.ofNatLt n _).toNat = n
  simp

theorem eq_of_toNat_eq (c d : Char) (h : c.toNat = d.toNat) : c = d := by
  rw [← Char.ofNat_toNat c, ← Char.ofNat_toNat d, h]

theorem isUpperLetter_iff (c : Char) : isUpperLetter c = true ↔ 65 ≤ c.toNat ∧ c.toNat ≤ 90 := by
  simp [isUpperLetter]

theorem isLowerLetter_iff (c : Char) : isLowerLetter c = true ↔ 97 ≤ c.toNat ∧ c.toNat ≤ 122 := by
  simp [isLowerLetter]

theorem lowerCaseChar_not_upper (c : Char) : isUpperLetter (lowerCaseChar c) = false := by
  unfold lowerCaseChar
  by_cases hu : isUpperLetter c = true
  · rw [if_pos hu]
    rw [isUpperLetter_iff] at hu
    have : (Char.ofNat (c.toNat + 32)).toNat = c.toNat + 32 :=
      toNat_ofNat_of_lt _ (by omega)
    rw [Bool.eq_false_iff, ne_eq, isUpperLetter_iff, this]
    omega
  · rw [if_neg hu]
    split_ifs <;> first | decide | simpa using hu

theorem lowerCaseChar_of_lower (c : Char) (h : isLowerLetter c = true) : lowerCaseChar c = c := by
  rw [isLowerLetter_iff] at h
  unfold lowerCaseChar
  have hu : ¬ isUpperLetter c = true := by
    rw [isUpperLetter_iff]; omega
  rw [if_neg hu]
  split_ifs with h1 h2 h3 h4 h5
  · subst h1; revert h; decide
  · subst h2; revert h; decide
  · subst h3; revert h; decide
  · subst h4; revert h; decide
  · subst h5; revert h; decide
  · rfl

theorem canonicalize_eq_imp (p c : Char) (hp : isLowerLetter p = true)
    (hc : isUpperLetter c = false) (h : canonicalize p = canonicalize c) : p = c := by
  unfold canonicalize at h
  rw [if_pos hp] at h
  have hp' := (isLowerLetter_iff p).1 hp
  have hpn : (Char.ofNat (p.toNat - 32)).toNat = p.toNat - 32 :=
    toNat_ofNat_of_lt _ (by omega)
  by_cases hl : isLowerLetter c = true
  · rw [if_pos hl] at h
    have hl' := (isLowerLetter_iff c).1 hl
    have hcn : (Char.ofNat (c.toNat - 32)).toNat = c.toNat - 32 :=
      toNat_ofNat_of_lt _ (by omega)
    apply eq_of_toNat_eq
    have := congrArg Char.toNat h
    rw [hpn, hcn] at this
    omega
  · rw [if_neg hl] at h
    exfalso
    have hcu : isUpperLetter c = true := by
      rw [isUpperLetter_iff, ← h, hpn]; omega
    rw [hc] at hcu; cases hcu

theorem matchIgnoreCase_iff (variation s : JsString)
    (hv : ∀ p ∈ variation, isLowerLetter p = true) (hs : ∀ c ∈ s, isUpperLetter c = false) :
    matchIgnoreCase variation s = true ↔ variation <+: s := by
  induction variation generalizing s with
  | nil => simp [matchIgnoreCase]
  | cons p ps ih =>
    cases s with
    | nil => simp [matchIgnoreCase]
    | cons c cs =>
      unfold matchIgnoreCase
      rw [Bool.and_eq_true, beq_iff_eq, List.cons_prefix_cons,
        ih cs (fun q hq => hv q (List.mem_cons_of_mem _ hq))
          (fun d hd => hs d (List.mem_cons_of_mem _ hd))]
      constructor
      · rintro ⟨h1, h2⟩
        exact ⟨canonicalize_eq_imp p c (hv p (List.mem_cons_self _ _))
          (hs c (List.mem_cons_self _ _)) h1, h2⟩
      · rintro ⟨rfl, h2⟩
        exact ⟨rfl, h2⟩

theorem toLowerCase_not_upper (s : JsString) : ∀ c ∈ toLowerCase s, isUpperLetter c = false := by
  intro c hc
  unfold toLowerCase at hc
  obtain ⟨d, _, rfl⟩ := List.mem_map.1 hc
  exact lowerCaseChar_not_upper d

theorem targetPos_not_upper (word : DictionaryEntry) :
    ∀ c ∈ targetPos word, isUpperLetter c = false := by
  unfold targetPos
  split_ifs
  · decide
  · unfold normalizedPos
    cases word.pos with
    | none => simp
    | some pos =>
      by_cases h : pos = []
      · simp [h]
      · simp only [ne_eq, h, not_false_eq_true, if_true]
        exact toLowerCase_not_upper _

/-! ## Word boundaries -/

theorem isWordCharAt_append_cons (pre : JsString) (c : Char) (rest : JsString) :
    isWordCharAt (pre ++ c :: rest) (some pre.length) = isWordChar c := by
  have : (pre ++ c :: rest).get? pre.length = some c := by
    rw [List.get?_eq_getElem?, List.getElem?_append_right (le_refl _)]
    simp
  simp only [isWordCharAt, this]

theorem isWordCharAt_append_nil (pre : JsString) :
    isWordCharAt (pre ++ []) (some pre.length) = false := by
  simp [isWordCharAt, List.get?_eq_getElem?]

/-- A word boundary holds right before a word character exactly when no word character
precedes it. -/
theorem wordBoundaryAt_before (pre : JsString) (p : Char) (rest : JsString)
    (hp : isWordChar p = true) :
    wordBoundaryAt (pre ++ p :: rest) pre.length = true ↔
      ∀ q, pre.getLast? = some q → isWordChar q = false := by
  unfold wordBoundaryAt
  rw [isWordCharAt_append_cons, hp]
  rcases List.eq_nil_or_concat pre with rfl | ⟨init, q, hq⟩
  · simp [isWordCharAt]
  · rw [List.concat_eq_append] at hq
    subst hq
    have h1 : (init ++ [q]).length ≠ 0 := by simp
    have h2 : (init ++ [q]).length - 1 = init.length := by simp
    rw [if_neg h1, h2]
    have h3 : init ++ [q] ++ p :: rest = init ++ q :: (p :: rest) := by simp
    rw [h3, isWordCharAt_append_cons]
    simp

/-- A word boundary holds right after a word character exactly when no word character
follows it. -/
theorem wordBoundaryAt_after (init : JsString) (l : Char) (post : JsString)
    (hl : isWordChar l = true) :
    wordBoundaryAt (init ++ l :: post) (init.length + 1) = true ↔
      ∀ q, post.head? = some q → isWordChar q = false := by
  unfold wordBoundaryAt
  have h1 : init.length + 1 ≠ 0 := by omega
  have h2 : init.length + 1 - 1 = init.length := by omega
  rw [if_neg h1, h2, isWordCharAt_append_cons, hl]
  cases post with
  | nil =>
    have : isWordCharAt (init ++ [l]) (some (init.length + 1)) = false := by
      have := isWordCharAt_append_nil (init ++ [l])
      simpa using this
    rw [this]; simp
  | cons q post =>
    have h3 : init ++ l :: q :: post = (init ++ [l]) ++ q :: post := by simp
    have h4 : init.length + 1 = (init ++ [l]).length := by simp
    rw [h3, h4, isWordCharAt_append_cons]
    simp

theorem isWordChar_of_lower (c : Char) (h : isLowerLetter c = true) : isWordChar c = true := by
  simp [isWordChar, h]

/-- For a lower-case word and an input without capital letters, the pattern matches at
index `i` exactly when the word stands at index `i`, with no word character right before or
right after it. -/
theorem wholeWordMatchAt_iff (variation input : JsString) (i : Nat)
    (hne : variation ≠ [])
    (hv : ∀ p ∈ variation, isLowerLetter p = true)
    (hs : ∀ c ∈ input, isUpperLetter c = false) :
    wholeWordMatchAt variation input i = true ↔
      ∃ pre post, input = pre ++ variation ++ post ∧ pre.length = i ∧
        (∀ q, pre.getLast? = some q → isWordChar q = false) ∧
        (∀ q, post.head? = some q → isWordChar q = false) := by
  obtain ⟨p, ps, hps⟩ := List.exists_cons_of_ne_nil hne
  obtain ⟨init, l, hil⟩ : ∃ init l, variation = init ++ [l] := by
    rcases List.eq_nil_or_concat variation with h | ⟨init, l, h⟩
    · exact absurd h hne
    · exact ⟨init, l, by rw [h, List.concat_eq_append]⟩
  have hp : isWordChar p = true :=
    isWordChar_of_lower p (hv p (by rw [hps]; exact List.mem_cons_self _ _))
  have hl : isWordChar l = true :=
    isWordChar_of_lower l (hv l (by rw [hil]; simp))
  have key : ∀ pre post, input = pre ++ variation ++ post → pre.length = i →
      (wordBoundaryAt input i = true ↔ ∀ q, pre.getLast? = some q → isWordChar q = false) ∧
      (wordBoundaryAt input (i + variation.length) = true ↔
        ∀ q, post.head? = some q → isWordChar q = false) := by
    intro pre post hin hlen
    constructor
    · have : input = pre ++ p :: (ps ++ post) := by rw [hin, hps]; simp
      rw [this, ← hlen]
      exact wordBoundaryAt_before pre p _ hp
    · have h1 : input = (pre ++ init) ++ l :: post := by rw [hin, hil]; simp
      have h2 : i + variation.length = (pre ++ init).length + 1 := by
        rw [hil, ← hlen]; simp; omega
      rw [h1, h2]
      exact wordBoundaryAt_after (pre ++ init) l post hl
  unfold wholeWordMatchAt
  rw [Bool.and_eq_true, Bool.and_eq_true,
    matchIgnoreCase_iff variation (input.drop i) hv
      (fun c hc => hs c (List.mem_of_mem_drop hc))]
  constructor
  · rintro ⟨⟨hb1, ⟨post, hpost⟩⟩, hb2⟩
    have hlt : i < input.length := by
      by_contra hge
      have : input.drop i = [] := List.drop_eq_nil_of_le (by omega)
      rw [this] at hpost
      exact hne (List.append_eq_nil.1 hpost).1
    have hin : input = input.take i ++ variation ++ post := by
      rw [List.append_assoc, hpost, List.take_append_drop]
    have hlen : (input.take i).length = i := by
      rw [List.length_take]; omega
    obtain ⟨k1, k2⟩ := key _ _ hin hlen
    exact ⟨input.take i, post, hin, hlen, k1.1 hb1, k2.1 hb2⟩
  · rintro ⟨pre, post, hin, hlen, h1, h2⟩
    obtain ⟨k1, k2⟩ := key _ _ hin hlen
    refine ⟨⟨k1.2 h1, ?_⟩, k2.2 h2⟩
    refine ⟨post, ?_⟩
    rw [hin, ← hlen]
    simp

/-- The regular expression test, for a lower-case word and an input without capital
letters: the word occurs with no word character right before or right after it. -/
theorem regexTest_iff (variation input : JsString)
    (hne : variation ≠ [])
    (hv : ∀ p ∈ variation, isLowerLetter p = true)
    (hs : ∀ c ∈ input, isUpperLetter c = false) :
    regexTest variation input = true ↔
      ∃ pre post, input = pre ++ variation ++ post ∧
        (∀ q, pre.getLast? = some q → isWordChar q = false) ∧
        (∀ q, post.head? = some q → isWordChar q = false) := by
  unfold regexTest
  rw [List.any_eq_true]
  constructor
  · rintro ⟨i, _, hi⟩
    obtain ⟨pre, post, h1, _, h2, h3⟩ := (wholeWordMatchAt_iff variation input i hne hv hs).1 hi
    exact ⟨pre, post, h1, h2, h3⟩
  · rintro ⟨pre, post, h1, h2, h3⟩
    refine ⟨pre.length, ?_, (wholeWordMatchAt_iff variation input _ hne hv hs).2
      ⟨pre, post, h1, rfl, h2, h3⟩⟩
    rw [List.mem_range, h1]
    simp
    omega

/-! ## Part of speech -/

/-- The nine categories of `posVariations` are non-empty lower-case words, and so are
their accepted variants; each category is among its own variants. -/
theorem category_facts (userPos : JsString) (h : userPos ∈ posVariations.map Prod.fst) :
    userPos ≠ [] ∧ toLowerCase userPos = userPos ∧
      ∃ vs, posVariations.lookup userPos = some vs ∧ userPos ∈ vs ∧
        ∀ v ∈ vs, v ≠ [] ∧ ∀ p ∈ v, isLowerLetter p = true := by
  simp only [posVariations, List.map_cons, List.map_nil, List.mem_cons, List.mem_singleton,
    List.not_mem_nil, or_false] at h
  rcases h with rfl | rfl | rfl | rfl | rfl | rfl | rfl | rfl | rfl
  · exact ⟨by decide, by decide, ["noun".toList], by decide, by decide, by decide⟩
  · exact ⟨by decide, by decide, ["verb".toList], by decide, by decide, by decide⟩
  · exact ⟨by decide, by decide, ["adjective".toList, "adj".toList], by decide, by decide,
      by decide⟩
  · exact ⟨by decide, by decide, ["adverb".toList, "adv".toList], by decide, by decide,
      by decide⟩
  · exact ⟨by decide, by decide, ["preposition".toList, "prep".toList], by decide, by decide,
      by decide⟩
  · exact ⟨by decide, by decide, ["conjunction".toList, "conj".toList], by decide, by decide,
      by decide⟩
  · exact ⟨by decide, by decide, ["pronoun".toList], by decide, by decide, by decide⟩
  · exact ⟨by decide, by decide, ["interjection".toList], by decide, by decide, by decide⟩
  · exact ⟨by decide, by decide, ["chant".toList], by decide, by decide, by decide⟩

/-- C6. For a submitted part of speech that is one of the nine categories of the synonym
table, `isPosCorrect` holds exactly when an accepted variant of the category occurs in the
expected part of speech as a whole word: as a piece of it that has no letter, digit or
underscore right before it and none right after it.  An empty selection is never right. -/
theorem pos_whole_word_matching (word : DictionaryEntry) (userPos : JsString) :
    (userPos ∈ posVariations.map Prod.fst →
      (isPosCorrect (targetPos word) userPos = true ↔
        ∃ vs v, posVariations.lookup userPos = some vs ∧ v ∈ vs ∧
          ∃ pre post, targetPos word = pre ++ v ++ post ∧
            (∀ q, pre.getLast? = some q →
              (isUpperLetter q || isLowerLetter q || isDigit q || q == '_') = false) ∧
            (∀ q, post.head? = some q →
              (isUpperLetter q || isLowerLetter q || isDigit q || q == '_') = false))) ∧
    isPosCorrect (targetPos word) [] = false := by
  refine ⟨?_, by simp [isPosCorrect]⟩
  intro hcat
  obtain ⟨hne, hlow, vs, hvs, _, hall⟩ := category_facts userPos hcat
  have hvar : variations userPos = vs := by
    unfold variations
    simp only [hlow, hvs]
  unfold isPosCorrect
  rw [if_pos hne, hvar, List.any_eq_true]
  constructor
  · rintro ⟨v, hv, ht⟩
    have := (regexTest_iff v (targetPos word) (hall v hv).1 (hall v hv).2
      (targetPos_not_upper word)).1 ht
    exact ⟨vs, v, hvs, hv, this⟩
  · rintro ⟨vs', v, hvs', hv, hocc⟩
    rw [hvs] at hvs'
    cases hvs'
    exact ⟨v, hv, (regexTest_iff v (targetPos word) (hall v hv).1 (hall v hv).2
      (targetPos_not_upper word)).2 hocc⟩

/-- Witness for C6: "verb" is right for "3rd conjugation verb, deponent", where it stands
between two spaces; "adverb" is wrong for "adverbial" and "verb" is wrong for "adverb". -/
theorem pos_whole_word_matching_witness :
    (∃ vs v, posVariations.lookup "verb".toList = some vs ∧ v ∈ vs ∧
      ∃ pre post, targetPos ⟨"sequor".toList, "follow".toList, none,
          some "3rd conjugation verb, deponent".toList⟩ = pre ++ v ++ post ∧
        (∀ q, pre.getLast? = some q →
          (isUpperLetter q || isLowerLetter q || isDigit q || q == '_') = false) ∧
        (∀ q, post.head? = some q →
          (isUpperLetter q || isLowerLetter q || isDigit q || q == '_') = false)) ∧
    isPosCorrect (targetPos ⟨"celeriter".toList, "quickly".toList, none,
      some "adverbial".toList⟩) "adverb".toList = false ∧
    isPosCorrect (targetPos ⟨"celeriter".toList, "quickly".toList, none,
      some "adverb".toList⟩) "verb".toList = false :=
  ⟨((pos_whole_word_matching ⟨"sequor".toList, "follow".toList, none,
      some "3rd conjugation verb, deponent".toList⟩ "verb".toList).1 (by decide)).1 (by decide),
   by decide, by decide⟩

/-! ## A submission that reproduces the entry -/

theorem checkPartsFrom_of_all_match (values targets : List JsString) (index : Nat)
    (state : Bool × List Nat)
    (h : List.Forall₂ (fun value target => partMatches value target = true) values targets) :
    checkPartsFrom index values targets state = state := by
  induction h generalizing index with
  | nil => simp [checkPartsFrom]
  | cons hm _ ih =>
    unfold checkPartsFrom
    simp only [hm, Bool.not_true, Bool.false_eq_true, if_false]
    exact ih (index + 1)

/-- C9. For an entry whose translation does not contain "chant" in any letter case and
whose part of speech, trimmed and lower-cased, is one of the nine categories, a submission
with one part per comma-separated part of `latin`, each equal to it up to letter case and
surrounding white space, with the expected gender and with the category of the entry, gets
a verdict in which the parts, the gender and the part of speech are right, so that the
answer is right (the conjunction of the three) and the score goes up by one. -/
theorem reproducing_submission_accepted (score : Nat) (word : DictionaryEntry)
    (userInputs : List JsString) (userGender userPos category : JsString)
    (hchant : ¬ ∃ pre mid post, word.translation = pre ++ mid ++ post ∧
      toLowerCase mid = "chant".toList)
    (hpos : ∃ pos, word.pos = some pos ∧ toLowerCase (trim pos) = category)
    (hcat : category ∈ posVariations.map Prod.fst)
    (hparts : List.Forall₂ (fun value part => toLowerCase (trim value) = toLowerCase (trim part))
      userInputs (split ',' word.latin))
    (hgender : userGender =
      (match word.gender with
       | none => "none".toList
       | some gender => if trim gender = [] then "none".toList else trim gender))
    (huserPos : userPos = category) :
    ∃ v : Verdict, checkBtnClick score word userInputs userGender userPos = ⟨some v, score + 1⟩ ∧
      v.allPartsCorrect = true ∧ v.incorrectIndices = [] ∧ v.isGenderCorrect = true ∧
      v.isPosCorrect = true ∧ v.isCorrect = true ∧
      v.isCorrect = (v.allPartsCorrect && v.isGenderCorrect && v.isPosCorrect) := by
  subst huserPos
  obtain ⟨hne, hlow, vs, hvs, hmem, hall⟩ := category_facts userPos hcat
  -- the guard lets the submission through
  have hguard : needsInput userInputs userGender userPos = false := by
    rw [Bool.eq_false_iff, ne_eq, needsInput_iff]
    exact fun h => hne h.2.2
  -- parts
  have hforall : List.Forall₂ (fun value target => partMatches value target = true)
      userInputs (targetParts word) := by
    unfold targetParts
    rw [List.forall₂_map_right_iff]
    exact hparts.imp (fun _ _ h => (partMatches_iff _ _).2 (Or.inl h))
  have hpartsOk : checkParts userInputs (targetParts word) = (true, []) := by
    unfold checkParts
    rw [if_neg (by simpa using hforall.length_eq)]
    exact checkPartsFrom_of_all_match _ _ _ _ hforall
  -- gender
  have hgenderOk : (userGender == targetGender word) = true := by
    rw [beq_iff_eq, hgender]
    exact (targetGender_eq word).symm
  -- part of speech
  have htarget : targetPos word = userPos := by
    obtain ⟨pos, hp1, hp2⟩ := hpos
    have hnorm : normalizedPos word = userPos := by
      rw [normalizedPos_eq, hp1]; exact hp2
    unfold targetPos
    have h1 : includes (toLowerCase word.translation) "chant".toList = false := by
      rw [Bool.eq_false_iff, ne_eq, includes_toLowerCase_iff]
      exact hchant
    have h2 : (normalizedPos word == []) = false := by
      rw [hnorm]; simpa using hne
    simp only [h1, h2, Bool.false_and, Bool.or_false, Bool.false_eq_true, if_false]
    exact hnorm
  have hposOk : isPosCorrect (targetPos word) userPos = true := by
    rw [htarget]
    unfold isPosCorrect
    have hvar : variations userPos = vs := by
      unfold variations
      simp only [hlow, hvs]
    rw [if_pos hne, hvar, List.any_eq_true]
    refine ⟨userPos, hmem, ?_⟩
    rw [regexTest_iff userPos userPos hne (hall userPos hmem).2]
    · exact ⟨[], [], by simp, by simp, by simp⟩
    · intro c hc
      have := (isLowerLetter_iff c).1 ((hall userPos hmem).2 c hc)
      rw [Bool.eq_false_iff, ne_eq, isUpperLetter_iff]
      omega
  unfold checkBtnClick
  simp [hguard, hpartsOk, hgenderOk, hposOk]

/-- Witness for C9: the entry "porto, portare, portavi, portatum", answered in capitals. -/
theorem reproducing_submission_accepted_witness :
    ∃ v : Verdict,
      checkBtnClick 7 ⟨"porto, portare, portavi, portatum".toList, "carry".toList,
          some [], some "verb".toList⟩
        ["Porto".toList, "PORTARE".toList, " portavi".toList, "portatum".toList]
        "none".toList "verb".toList = ⟨some v, 7 + 1⟩ ∧
      v.allPartsCorrect = true ∧ v.incorrectIndices = [] ∧ v.isGenderCorrect = true ∧
      v.isPosCorrect = true ∧ v.isCorrect = true ∧
      v.isCorrect = (v.allPartsCorrect && v.isGenderCorrect && v.isPosCorrect) :=
  reproducing_submission_accepted 7
    ⟨"porto, portare, portavi, portatum".toList, "carry".toList, some [], some "verb".toList⟩
    ["Porto".toList, "PORTARE".toList, " portavi".toList, "portatum".toList]
    "none".toList "verb".toList "verb".toList
    (by
      rw [← includes_toLowerCase_iff]
      decide)
    ⟨"verb".toList, rfl, by decide⟩
    (by decide)
    (by
      have h : split ',' "porto, portare, portavi, portatum".toList =
          ["porto".toList, " portare".toList, " portavi".toList, " portatum".toList] := by
        decide
      show List.Forall₂ _ _ (split ',' "porto, portare, portavi, portatum".toList)
      rw [h]
      refine List.Forall₂.cons (by decide) (List.Forall₂.cons (by decide)
        (List.Forall₂.cons (by decide) (List.Forall₂.cons (by decide) List.Forall₂.nil))))
    (by decide)
    rfl


/-! ## The two passes as one scan -/

theorem replaceAllFrom_skip (pattern replacement : JsString) (skip : Nat) (s : JsString) :
    replaceAllFrom pattern replacement skip s = replaceAllFrom pattern replacement 0 (s.drop skip) := by
  induction s generalizing skip with
  | nil => simp [replaceAllFrom]
  | cons c cs ih =>
    cases skip with
    | zero => rfl
    | succ k =>
      simp only [replaceAllFrom, List.drop_succ_cons]
      exact ih k

theorem replaceAll_nil (pattern replacement : JsString) : replaceAll [] pattern replacement = [] := rfl

theorem replaceAll_cons_of_no_match (pattern replacement : JsString) (c : Char) (cs : JsString)
    (h : ¬ pattern <+: c :: cs) :
    replaceAll (c :: cs) pattern replacement = c :: replaceAll cs pattern replacement := by
  have h' : pattern.isPrefixOf (c :: cs) = false := by
    rwa [Bool.eq_false_iff, ne_eq, List.isPrefixOf_iff_prefix]
  simp only [replaceAll, replaceAllFrom, h', Bool.false_eq_true, if_false]

theorem replaceAll_paren_hit (key m : Char) (rest : JsString) :
    replaceAll ('(' :: key :: ')' :: rest) (parenPattern key) [m]
      = m :: replaceAll rest (parenPattern key) [m] := by
  have h : (parenPattern key).isPrefixOf ('(' :: key :: ')' :: rest) = true := by
    rw [List.isPrefixOf_iff_prefix]
    exact ⟨rest, rfl⟩
  simp only [replaceAll, replaceAllFrom, h, if_true]
  rw [replaceAllFrom_skip]
  rfl

theorem replaceAll_single (cap mac : Char) (s : JsString) :
    replaceAll s [cap] [mac] = s.map (fun c => if c = cap then mac else c) := by
  induction s with
  | nil => rfl
  | cons c cs ih =>
    by_cases h : c = cap
    · subst h
      have hp : ([c] : JsString).isPrefixOf (c :: cs) = true := by
        rw [List.isPrefixOf_iff_prefix]; exact ⟨cs, rfl⟩
      have : replaceAll (c :: cs) [c] [mac] = mac :: replaceAll cs [c] [mac] := by
        simp only [replaceAll, replaceAllFrom, hp, if_true]
        rfl
      rw [this, ih]; simp
    · have hp : ¬ ([cap] : JsString) <+: c :: cs := by
        rintro ⟨t, ht⟩
        simp only [List.singleton_append, List.cons.injEq] at ht
        exact h ht.1.symm
      rw [replaceAll_cons_of_no_match _ _ _ _ hp, ih]
      simp [h]

theorem capitalPass_eq_map (s : JsString) : capitalPass s = s.map capitalChar := by
  simp only [capitalPass, capitalToMacron, List.foldl_cons, List.foldl_nil, replaceAll_single,
    List.map_map]
  apply List.map_congr_left
  intro c _
  simp [capitalChar, capitalToMacron]

theorem matchKey_eq_some_iff (tbl : List (Char × Char)) (s : JsString) (m : Char) :
    matchKey tbl s = some m ↔
      ∃ key rest, s = '(' :: key :: ')' :: rest ∧ tbl.lookup key = some m := by
  constructor
  · intro h
    match s, h with
    | c :: key :: d :: rest, h =>
      simp only [matchKey] at h
      by_cases hc : c = '(' ∧ d = ')'
      · rw [if_pos hc] at h
        obtain ⟨rfl, rfl⟩ := hc
        exact ⟨key, rest, rfl, h⟩
      · rw [if_neg hc] at h; cases h
  · rintro ⟨key, rest, rfl, h⟩
    simp [matchKey, h]

theorem matchKey_of_ne_paren (tbl : List (Char × Char)) (c : Char) (cs : JsString)
    (h : c ≠ '(') : matchKey tbl (c :: cs) = none := by
  cases hm : matchKey tbl (c :: cs) with
  | none => rfl
  | some m =>
    obtain ⟨key, rest, hs, _⟩ := (matchKey_eq_some_iff _ _ _).1 hm
    simp only [List.cons.injEq] at hs
    exact absurd hs.1 h

theorem scan_nil (tbl : List (Char × Char)) : scan tbl [] = [] := rfl

theorem scan_hit (tbl : List (Char × Char)) (key m : Char) (rest : JsString)
    (h : tbl.lookup key = some m) :
    scan tbl ('(' :: key :: ')' :: rest) = m :: scan tbl rest := by
  have : matchKey tbl ('(' :: key :: ')' :: rest) = some m :=
    (matchKey_eq_some_iff _ _ _).2 ⟨key, rest, rfl, h⟩
  simp only [scan, scanFrom, this]

theorem scan_cons_of_none (tbl : List (Char × Char)) (c : Char) (cs : JsString)
    (h : matchKey tbl (c :: cs) = none) : scan tbl (c :: cs) = c :: scan tbl cs := by
  simp only [scan, scanFrom, h]

theorem mem_of_lookup_eq_some (tbl : List (Char × Char)) (key m : Char)
    (h : tbl.lookup key = some m) : (key, m) ∈ tbl := by
  induction tbl with
  | nil => simp at h
  | cons e tbl ih =>
    obtain ⟨k, v⟩ := e
    by_cases hk : key = k
    · subst hk
      simp only [List.lookup_cons, beq_self_eq_true, Option.some.injEq] at h
      subst h
      exact List.mem_cons_self _ _
    · have : (key == k) = false := by simpa using hk
      simp only [List.lookup_cons, this] at h
      exact List.mem_cons_of_mem _ (ih h)

theorem lookup_ne_none_of_mem (tbl : List (Char × Char)) (key m : Char)
    (h : (key, m) ∈ tbl) : tbl.lookup key ≠ none := by
  induction tbl with
  | nil => simp at h
  | cons e tbl ih =>
    obtain ⟨k, v⟩ := e
    by_cases hk : key = k
    · subst hk; simp
    · have hb : (key == k) = false := by simpa using hk
      simp only [List.lookup_cons, hb]
      rcases List.mem_cons.1 h with h | h
      · simp only [Prod.mk.injEq] at h
        exact absurd h.1 hk
      · exact ih h

/-- A character that is not a macron of the table, found at the head of the scanned
string, was at the head of the string. -/
theorem scan_head (tbl : List (Char × Char)) (s : JsString) (c : Char) (out : JsString)
    (hval : ∀ e ∈ tbl, e.2 ≠ c) (h : scan tbl s = c :: out) :
    ∃ r, s = c :: r ∧ scan tbl r = out := by
  cases s with
  | nil => simp [scan_nil] at h
  | cons d ds =>
    cases hm : matchKey tbl (d :: ds) with
    | none =>
      rw [scan_cons_of_none _ _ _ hm] at h
      simp only [List.cons.injEq] at h
      exact ⟨ds, by rw [h.1], h.2⟩
    | some m =>
      obtain ⟨key, rest, hs, hl⟩ := (matchKey_eq_some_iff _ _ _).1 hm
      rw [hs, scan_hit _ _ _ _ hl] at h
      simp only [List.cons.injEq] at h
      exact absurd h.1 (hval _ (mem_of_lookup_eq_some _ _ _ hl))

theorem paren_prefix_iff (key : Char) (s : JsString) :
    parenPattern key <+: s ↔ ∃ rest, s = '(' :: key :: ')' :: rest := by
  constructor
  · rintro ⟨t, ht⟩; exact ⟨t, ht.symm⟩
  · rintro ⟨t, ht⟩; exact ⟨t, ht.symm⟩

/-- Replacing one more parenthesised key in the result of a scan amounts to a scan with
the key added to the table. -/
theorem replaceAll_scan (tbl : List (Char × Char)) (key m : Char)
    (hkey : key ≠ '(') (hnew : tbl.lookup key = none)
    (hval : ∀ e ∈ tbl, e.2 ≠ '(' ∧ e.2 ≠ ')' ∧ e.2 ≠ key) :
    ∀ (n : Nat) (s : JsString), s.length ≤ n →
      replaceAll (scan tbl s) (parenPattern key) [m] = scan (tbl ++ [(key, m)]) s := by
  intro n
  induction n with
  | zero =>
    intro s hs
    have : s = [] := List.length_eq_zero.1 (Nat.le_zero.1 hs)
    subst this
    rfl
  | succ n ih =>
    intro s hs
    cases s with
    | nil => rfl
    | cons c cs =>
      have hcs : cs.length ≤ n := by simpa using hs
      cases hm : matchKey (tbl ++ [(key, m)]) (c :: cs) with
      | some m2 =>
        obtain ⟨k2, rest, hshape, hl⟩ := (matchKey_eq_some_iff _ _ _).1 hm
        have hrest : rest.length ≤ n := by
          have := congrArg List.length hshape
          simp only [List.length_cons] at this
          omega
        rw [hshape, scan_hit _ _ _ _ hl]
        cases hl1 : tbl.lookup k2 with
        | some m1 =>
          have : m2 = m1 := by
            rw [List.lookup_append, hl1] at hl
            simpa using hl.symm
          subst this
          rw [scan_hit _ _ _ _ hl1]
          have hnp : ¬ parenPattern key <+: m2 :: scan tbl rest := by
            rw [paren_prefix_iff]
            rintro ⟨t, ht⟩
            simp only [List.cons.injEq] at ht
            exact (hval _ (mem_of_lookup_eq_some _ _ _ hl1)).1 ht.1
          rw [replaceAll_cons_of_no_match _ _ _ _ hnp, ih rest hrest]
        | none =>
          rw [List.lookup_append, hl1] at hl
          have hk : k2 = key := by
            by_contra hne
            have : (k2 == key) = false := by simpa using hne
            simp [List.lookup, this] at hl
          subst hk
          have hm2 : m2 = m := by
            simp [List.lookup] at hl
            exact hl.symm
          subst hm2
          have h1 : matchKey tbl ('(' :: k2 :: ')' :: rest) = none := by
            cases hx : matchKey tbl ('(' :: k2 :: ')' :: rest) with
            | none => rfl
            | some x =>
              obtain ⟨k3, r3, hs3, hl3⟩ := (matchKey_eq_some_iff _ _ _).1 hx
              simp only [List.cons.injEq, true_and] at hs3
              rw [← hs3.1, hl1] at hl3
              cases hl3
          rw [scan_cons_of_none _ _ _ h1,
            scan_cons_of_none _ _ _ (matchKey_of_ne_paren tbl k2 _ hkey),
            scan_cons_of_none _ _ _ (matchKey_of_ne_paren tbl ')' _ (by decide)),
            replaceAll_paren_hit, ih rest hrest]
      | none =>
        have h1 : matchKey tbl (c :: cs) = none := by
          cases hx : matchKey tbl (c :: cs) with
          | none => rfl
          | some x =>
            obtain ⟨k3, r3, hs3, hl3⟩ := (matchKey_eq_some_iff _ _ _).1 hx
            have : matchKey (tbl ++ [(key, m)]) (c :: cs) = some x :=
              (matchKey_eq_some_iff _ _ _).2 ⟨k3, r3, hs3, by rw [List.lookup_append, hl3]; rfl⟩
            rw [hm] at this
            cases this
        rw [scan_cons_of_none _ _ _ h1, scan_cons_of_none _ _ _ hm]
        have hnp : ¬ parenPattern key <+: c :: scan tbl cs := by
          rw [paren_prefix_iff]
          rintro ⟨t, ht⟩
          simp only [List.cons.injEq] at ht
          obtain ⟨hc, ht⟩ := ht
          obtain ⟨r1, hr1, hscan1⟩ := scan_head tbl cs key _
            (fun e he => (hval e he).2.2) ht
          obtain ⟨r2, hr2, _⟩ := scan_head tbl r1 ')' _
            (fun e he => (hval e he).2.1) hscan1
          have : matchKey (tbl ++ [(key, m)]) (c :: cs) = some m := by
            rw [matchKey_eq_some_iff]
            refine ⟨key, r2, by rw [hc, hr1, hr2], ?_⟩
            rw [List.lookup_append, hnew]
            simp [List.lookup]
          rw [hm] at this
          cases this
        rw [replaceAll_cons_of_no_match _ _ _ _ hnp, ih cs hcs]

theorem scan_empty_table (s : JsString) : scan [] s = s := by
  induction s with
  | nil => rfl
  | cons c cs ih =>
    have : matchKey [] (c :: cs) = none := by
      cases hx : matchKey [] (c :: cs) with
      | none => rfl
      | some x =>
        obtain ⟨_, _, _, hl⟩ := (matchKey_eq_some_iff _ _ _).1 hx
        simp at hl
    rw [scan_cons_of_none _ _ _ this, ih]

/-- The first loop of the listener is one scan with the table `vowels`. -/
theorem parenPass_eq_scan (s : JsString) : parenPass s = scan vowels s := by
  have step := fun tbl key m h1 h2 h3 => replaceAll_scan tbl key m h1 h2 h3 s.length s le_rfl
  have h1 : replaceAll s (parenPattern 'a') ['ā'] = scan [('a', 'ā')] s := by
    have := step [] 'a' 'ā' (by decide) (by decide) (by decide)
    rwa [scan_empty_table] at this
  have h2 := step [('a', 'ā')] 'e' 'ē' (by decide) (by decide) (by decide)
  have h3 := step [('a', 'ā'), ('e', 'ē')] 'i' 'ī' (by decide) (by decide) (by decide)
  have h4 := step [('a', 'ā'), ('e', 'ē'), ('i', 'ī')] 'o' 'ō'
    (by decide) (by decide) (by decide)
  have h5 := step [('a', 'ā'), ('e', 'ē'), ('i', 'ī'), ('o', 'ō')] 'u' 'ū'
    (by decide) (by decide) (by decide)
  have h6 := step [('a', 'ā'), ('e', 'ē'), ('i', 'ī'), ('o', 'ō'), ('u', 'ū')] 'A' 'Ā'
    (by decide) (by decide) (by decide)
  have h7 := step [('a', 'ā'), ('e', 'ē'), ('i', 'ī'), ('o', 'ō'), ('u', 'ū'), ('A', 'Ā')]
    'E' 'Ē' (by decide) (by decide) (by decide)
  have h8 := step [('a', 'ā'), ('e', 'ē'), ('i', 'ī'), ('o', 'ō'), ('u', 'ū'), ('A', 'Ā'),
    ('E', 'Ē')] 'I' 'Ī' (by decide) (by decide) (by decide)
  have h9 := step [('a', 'ā'), ('e', 'ē'), ('i', 'ī'), ('o', 'ō'), ('u', 'ū'), ('A', 'Ā'),
    ('E', 'Ē'), ('I', 'Ī')] 'O' 'Ō' (by decide) (by decide) (by decide)
  have h10 := step [('a', 'ā'), ('e', 'ē'), ('i', 'ī'), ('o', 'ō'), ('u', 'ū'), ('A', 'Ā'),
    ('E', 'Ē'), ('I', 'Ī'), ('O', 'Ō')] 'U' 'Ū' (by decide) (by decide) (by decide)
  simp only [List.cons_append, List.nil_append] at h2 h3 h4 h5 h6 h7 h8 h9 h10
  simp only [parenPass, vowels, List.foldl_cons, List.foldl_nil]
  rw [h1, h2, h3, h4, h5, h6, h7, h8, h9, h10]

/-- The text computed by the listener: a scan for the parenthesised vowels, then the
capital vowels replaced character by character. -/
theorem macronText_eq (s : JsString) : macronText s = (scan vowels s).map capitalChar := by
  rw [macronText, parenPass_eq_scan, capitalPass_eq_map]

/-- Facts about the entries of `vowels`: the key is not a parenthesis, the macron is not a
parenthesis nor a key, and the capital pass keeps the macron. -/
theorem vowels_entry (key m : Char) (h : vowels.lookup key = some m) :
    key ≠ '(' ∧ key ≠ ')' ∧ m ≠ '(' ∧ m ≠ ')' ∧ capitalChar m = m ∧ capitalChar key ≠ '(' ∧
      vowels.lookup m = none := by
  have hmem := mem_of_lookup_eq_some _ _ _ h
  simp only [vowels, List.mem_cons, Prod.mk.injEq, List.mem_singleton, List.not_mem_nil,
    or_false] at hmem
  rcases hmem with ⟨rfl, rfl⟩ | ⟨rfl, rfl⟩ | ⟨rfl, rfl⟩ | ⟨rfl, rfl⟩ | ⟨rfl, rfl⟩ |
    ⟨rfl, rfl⟩ | ⟨rfl, rfl⟩ | ⟨rfl, rfl⟩ | ⟨rfl, rfl⟩ | ⟨rfl, rfl⟩ <;> decide

/-- The scan of a concatenation is the concatenation of the scans when no parenthesised
key lies across the junction. -/
theorem scan_append (tbl : List (Char × Char)) :
    ∀ (n : Nat) (p q : JsString), p.length ≤ n →
      (∀ key m, tbl.lookup key = some m →
        (∀ p1 q1, p = p1 ++ ['(', key] → q ≠ ')' :: q1) ∧
        (∀ p1 q1, p = p1 ++ ['('] → q ≠ key :: ')' :: q1)) →
      scan tbl (p ++ q) = scan tbl p ++ scan tbl q := by
  intro n
  induction n with
  | zero =>
    intro p q hp _
    have : p = [] := List.length_eq_zero.1 (Nat.le_zero.1 hp)
    subst this
    rfl
  | succ n ih =>
    intro p q hp hno
    cases p with
    | nil => rfl
    | cons c cs =>
      have hcs : cs.length ≤ n := by simpa using hp
      have hno_tail : ∀ (r : JsString), (∃ t, c :: cs = t ++ r) →
          ∀ key m, tbl.lookup key = some m →
            (∀ p1 q1, r = p1 ++ ['(', key] → q ≠ ')' :: q1) ∧
            (∀ p1 q1, r = p1 ++ ['('] → q ≠ key :: ')' :: q1) := by
        rintro r ⟨t, ht⟩ key m hl
        refine ⟨fun p1 q1 hr => (hno key m hl).1 (t ++ p1) q1 ?_,
          fun p1 q1 hr => (hno key m hl).2 (t ++ p1) q1 ?_⟩
        · rw [ht, hr, List.append_assoc]
        · rw [ht, hr, List.append_assoc]
      cases hm : matchKey tbl (c :: cs ++ q) with
      | some m =>
        obtain ⟨key, rest, hshape, hl⟩ := (matchKey_eq_some_iff _ _ _).1 hm
        -- the occurrence lies within `c :: cs`
        simp only [List.cons_append, List.cons.injEq] at hshape
        obtain ⟨hc, hrest⟩ := hshape
        subst hc
        cases cs with
        | nil =>
          exact absurd hrest ((hno key m hl).2 [] rest rfl)
        | cons c2 cs2 =>
          simp only [List.cons_append, List.cons.injEq] at hrest
          obtain ⟨hc2, hrest⟩ := hrest
          subst hc2
          cases cs2 with
          | nil =>
            exact absurd hrest ((hno c2 m hl).1 [] rest rfl)
          | cons c3 cs3 =>
            simp only [List.cons_append, List.cons.injEq] at hrest
            obtain ⟨hc3, hrest⟩ := hrest
            subst hc3
            subst hrest
            have e1 : '(' :: c2 :: ')' :: cs3 ++ q = '(' :: c2 :: ')' :: (cs3 ++ q) := rfl
            rw [e1, scan_hit _ _ _ _ hl, scan_hit _ _ _ _ hl,
              ih cs3 q (by simp at hcs; omega)
                (hno_tail cs3 ⟨['(', c2, ')'], rfl⟩)]
            rfl
      | none =>
        have h1 : matchKey tbl (c :: cs) = none := by
          cases hx : matchKey tbl (c :: cs) with
          | none => rfl
          | some x =>
            obtain ⟨k3, r3, hs3, hl3⟩ := (matchKey_eq_some_iff _ _ _).1 hx
            have : matchKey tbl (c :: cs ++ q) = some x :=
              (matchKey_eq_some_iff _ _ _).2 ⟨k3, r3 ++ q, by rw [hs3]; rfl, hl3⟩
            rw [hm] at this
            cases this
        have e1 : c :: cs ++ q = c :: (cs ++ q) := rfl
        rw [e1] at hm
        rw [e1, scan_cons_of_none _ _ _ hm, scan_cons_of_none _ _ _ h1,
          ih cs q hcs (hno_tail cs ⟨[c], rfl⟩)]
        rfl

/-! ## The cursor loops -/

theorem indexOfFrom_bounds (pattern : JsString) (hne : pattern ≠ []) (s : JsString) :
    ∀ (pos m : Nat), indexOfFrom pattern s pos = some m →
      pos ≤ m ∧ m + pattern.length ≤ pos + s.length := by
  induction s with
  | nil =>
    intro pos m h
    have : pattern.isPrefixOf [] = false := by
      cases pattern with
      | nil => exact absurd rfl hne
      | cons _ _ => rfl
    simp [indexOfFrom, this] at h
  | cons c cs ih =>
    intro pos m h
    unfold indexOfFrom at h
    by_cases hp : pattern.isPrefixOf (c :: cs) = true
    · rw [if_pos hp] at h
      cases h
      have := (List.isPrefixOf_iff_prefix.1 hp).length_le
      exact ⟨le_rfl, by omega⟩
    · rw [if_neg hp] at h
      obtain ⟨h1, h2⟩ := ih (pos + 1) m h
      simp only [List.length_cons]
      omega

/-- What one search of the loop finds, for a parenthesised key. -/
theorem indexOfFrom_paren (key : Char) (hk : key ≠ '(') (start : Nat) (s : JsString) :
    ∀ pos : Nat,
      (indexOfFrom (parenPattern key) s pos = none →
        countEndingBy (parenPattern key) start s pos = 0) ∧
      (∀ m, indexOfFrom (parenPattern key) s pos = some m →
        ∃ j, m = pos + j ∧ j + 3 ≤ s.length ∧
          countEndingBy (parenPattern key) start s pos =
            (if m + 3 ≤ start then 1 else 0) +
              countEndingBy (parenPattern key) start (s.drop (j + 3)) (m + 3)) := by
  induction s with
  | nil =>
    intro pos
    exact ⟨fun _ => rfl, fun m h => by simp [indexOfFrom, parenPattern] at h⟩
  | cons c cs ih =>
    intro pos
    by_cases hp : (parenPattern key).isPrefixOf (c :: cs) = true
    · have hfound : indexOfFrom (parenPattern key) (c :: cs) pos = some pos := by
        simp only [indexOfFrom, hp, if_true]
      obtain ⟨rest, hshape⟩ := (paren_prefix_iff key (c :: cs)).1 (List.isPrefixOf_iff_prefix.1 hp)
      refine ⟨fun h => (by rw [hfound] at h; cases h), ?_⟩
      intro m hm
      rw [hfound] at hm
      cases hm
      refine ⟨0, rfl, by rw [hshape]; simp, ?_⟩
      have hnk : (parenPattern key).isPrefixOf (key :: ')' :: rest) = false := by
        rw [Bool.eq_false_iff, ne_eq, List.isPrefixOf_iff_prefix, paren_prefix_iff]
        rintro ⟨t, ht⟩
        simp only [List.cons.injEq] at ht
        exact hk ht.1
      have hnp : (parenPattern key).isPrefixOf (')' :: rest) = false := by
        rw [Bool.eq_false_iff, ne_eq, List.isPrefixOf_iff_prefix, paren_prefix_iff]
        rintro ⟨t, ht⟩
        simp only [List.cons.injEq] at ht
        exact absurd ht.1 (by decide)
      have hlen : (parenPattern key).length = 3 := rfl
      rw [hshape] at hp
      rw [hshape]
      simp only [countEndingBy, hp, hnk, hnp, hlen, true_and, Bool.false_eq_true, false_and,
        if_false, Nat.zero_add, List.drop_succ_cons, List.drop_zero]
    · have hp : (parenPattern key).isPrefixOf (c :: cs) = false := Bool.eq_false_iff.2 hp
      have hstep : indexOfFrom (parenPattern key) (c :: cs) pos
          = indexOfFrom (parenPattern key) cs (pos + 1) := by
        simp only [indexOfFrom, hp, Bool.false_eq_true, if_false]
      have hcount : countEndingBy (parenPattern key) start (c :: cs) pos
          = countEndingBy (parenPattern key) start cs (pos + 1) := by
        simp only [countEndingBy, hp, Bool.false_eq_true, false_and, if_false, Nat.zero_add]
      obtain ⟨ih1, ih2⟩ := ih (pos + 1)
      rw [hstep, hcount]
      refine ⟨ih1, ?_⟩
      intro m hm
      obtain ⟨j, hj1, hj2, hj3⟩ := ih2 m hm
      refine ⟨j + 1, by omega, by simp only [List.length_cons]; omega, ?_⟩
      rw [hj3]
      rfl

/-- The loop for a parenthesised key ends, having added 2 for every occurrence that ends
at or before the cursor. -/
theorem offsetLoop_paren (original : JsString) (key m : Char) (hk : key ≠ '(') (start : Nat) :
    ∀ (fuel searchIndex : Nat) (offset : Int),
      searchIndex ≤ original.length → original.length < fuel + searchIndex →
      offsetLoop original (parenPattern key) [m] start fuel searchIndex offset =
        some (offset + 2 * (countEndingBy (parenPattern key) start
          (original.drop searchIndex) searchIndex : Nat)) := by
  intro fuel
  induction fuel with
  | zero => intro si off h1 h2; omega
  | succ fuel ih =>
    intro si off h1 h2
    have hidx : indexOf original (parenPattern key) si
        = indexOfFrom (parenPattern key) (original.drop si) si := by
      unfold indexOf
      rw [Nat.min_eq_left h1]
    obtain ⟨hnone, hsome⟩ := indexOfFrom_paren key hk start (original.drop si) si
    unfold offsetLoop
    rw [hidx]
    cases hres : indexOfFrom (parenPattern key) (original.drop si) si with
    | none =>
      simp only [hnone hres]
      simp
    | some found =>
      obtain ⟨j, hj1, hj2, hj3⟩ := hsome found hres
      have hlen : (parenPattern key).length = 3 := rfl
      rw [List.length_drop] at hj2
      simp only [hlen]
      rw [ih (found + 3) _ (by omega) (by omega), hj3]
      have hdrop : (original.drop si).drop (j + 3) = original.drop (found + 3) := by
        rw [List.drop_drop]
        congr 1
        omega
      rw [hdrop]
      by_cases hle : found + 3 ≤ start
      · simp only [hle, if_true]
        simp only [List.length_singleton]
        push_cast
        ring_nf
      · simp only [hle, if_false]
        simp

/-- The loop for a capital ends and leaves the offset as it is. -/
theorem offsetLoop_capital (original : JsString) (cap mac : Char) (start : Nat) :
    ∀ (fuel searchIndex : Nat) (offset : Int),
      searchIndex ≤ original.length → original.length < fuel + searchIndex →
      offsetLoop original [cap] [mac] start fuel searchIndex offset = some offset := by
  intro fuel
  induction fuel with
  | zero => intro si off h1 h2; omega
  | succ fuel ih =>
    intro si off h1 h2
    have hidx : indexOf original [cap] si = indexOfFrom [cap] (original.drop si) si := by
      unfold indexOf
      rw [Nat.min_eq_left h1]
    unfold offsetLoop
    rw [hidx]
    cases hres : indexOfFrom [cap] (original.drop si) si with
    | none => rfl
    | some found =>
      obtain ⟨hb1, hb2⟩ := indexOfFrom_bounds [cap] (by simp) _ _ _ hres
      rw [List.length_drop] at hb2
      simp only [List.length_singleton] at hb2 ⊢
      rw [ih (found + 1) _ (by omega) (by omega)]
      simp

theorem countEndingBy_eq_countOcc (pattern : JsString) (hne : pattern ≠ []) (start : Nat)
    (s : JsString) :
    ∀ pos : Nat, countEndingBy pattern start s pos = countOcc pattern (s.take (start - pos)) := by
  have hpos : 0 < pattern.length := List.length_pos.2 hne
  induction s with
  | nil => intro pos; simp [countEndingBy, countOcc]
  | cons c cs ih =>
    intro pos
    unfold countEndingBy
    rw [ih (pos + 1)]
    cases hn : start - pos with
    | zero =>
      have h0 : start - (pos + 1) = 0 := by omega
      have hnot : ¬ (pattern.isPrefixOf (c :: cs) = true ∧ pos + pattern.length ≤ start) := by
        rintro ⟨_, h⟩; omega
      rw [h0, if_neg hnot]
      simp [countOcc]
    | succ n =>
      have h1 : start - (pos + 1) = n := by omega
      rw [h1, List.take_succ_cons,
        show countOcc pattern (c :: List.take n cs) =
          (if pattern.isPrefixOf (c :: List.take n cs) then 1 else 0) +
            countOcc pattern (List.take n cs) from rfl]
      congr 1
      have hiff : (pattern.isPrefixOf (c :: cs) = true ∧ pos + pattern.length ≤ start) ↔
          pattern.isPrefixOf (c :: List.take n cs) = true := by
        rw [List.isPrefixOf_iff_prefix, List.isPrefixOf_iff_prefix, ← List.take_succ_cons,
          List.prefix_take_iff]
        constructor
        · rintro ⟨h, h'⟩; exact ⟨h, by omega⟩
        · rintro ⟨h, h'⟩; exact ⟨h, by omega⟩
      by_cases hq : pattern.isPrefixOf (c :: List.take n cs) = true
      · rw [if_pos (hiff.2 hq), if_pos hq]
      · rw [if_neg (fun h => hq (hiff.1 h)), if_neg hq]

/-- The first `for` loop of the cursor computation ends, having added 2 for every
parenthesised key that occurs within the first `start` characters. -/
theorem offsetPass_paren (original : JsString) (start : Nat) (tbl : List (Char × Char))
    (hkey : ∀ e ∈ tbl, e.1 ≠ '(') :
    ∀ offset : Int, offsetPass original start parenPattern tbl offset =
      some (offset + 2 * (sumOcc tbl (original.take start) : Nat)) := by
  induction tbl with
  | nil => intro offset; simp [offsetPass, sumOcc]
  | cons e tbl ih =>
    intro offset
    unfold offsetPass
    rw [offsetLoop_paren original e.1 e.2 (hkey e (List.mem_cons_self _ _)) start
      (original.length + 1) 0 offset (Nat.zero_le _) (by omega)]
    simp only
    rw [ih (fun x hx => hkey x (List.mem_cons_of_mem _ hx)),
      countEndingBy_eq_countOcc _ (by simp [parenPattern])]
    simp only [List.drop_zero, Nat.sub_zero, sumOcc, List.map_cons, List.sum_cons]
    congr 1
    push_cast
    ring

/-- The second `for` loop of the cursor computation ends and adds nothing. -/
theorem offsetPass_capital (original : JsString) (start : Nat) (tbl : List (Char × Char)) :
    ∀ offset : Int, offsetPass original start (fun cap => [cap]) tbl offset = some offset := by
  induction tbl with
  | nil => intro offset; rfl
  | cons e tbl ih =>
    intro offset
    unfold offsetPass
    rw [offsetLoop_capital original e.1 e.2 start (original.length + 1) 0 offset
      (Nat.zero_le _) (by omega)]
    exact ih offset

/-- The listener always ends.  Its text is `macronText`; when the text changed, the cursor
moves back by 2 for every parenthesised vowel within the first `start` characters. -/
theorem addMacronSupport_eq (value : JsString) (start : Nat) :
    addMacronSupport value start =
      some ⟨macronText value,
        if macronText value ≠ value then
          max 0 ((start : Int) - 2 * (sumOcc vowels (value.take start) : Nat))
        else (start : Int)⟩ := by
  unfold addMacronSupport
  simp only
  by_cases h : macronText value = value
  · simp [h]
  · rw [if_pos h, if_pos h, offsetPass_paren value start vowels (by decide)]
    simp only [offsetPass_capital]
    simp

/-! ## Lengths -/

theorem countOcc_of_head_ne (key c : Char) (cs : JsString) (h : c ≠ '(') :
    countOcc (parenPattern key) (c :: cs) = countOcc (parenPattern key) cs := by
  have : (parenPattern key).isPrefixOf (c :: cs) = false := by
    rw [Bool.eq_false_iff, ne_eq, List.isPrefixOf_iff_prefix, paren_prefix_iff]
    rintro ⟨t, ht⟩
    simp only [List.cons.injEq] at ht
    exact h ht.1
  simp [countOcc, this]

theorem sumOcc_of_head_ne (tbl : List (Char × Char)) (c : Char) (cs : JsString) (h : c ≠ '(') :
    sumOcc tbl (c :: cs) = sumOcc tbl cs := by
  unfold sumOcc
  congr 1
  apply List.map_congr_left
  intro e _
  exact countOcc_of_head_ne e.1 c cs h

theorem sumOcc_nil (tbl : List (Char × Char)) : sumOcc tbl [] = 0 := by
  induction tbl with
  | nil => rfl
  | cons e tbl ih =>
    simp only [sumOcc, List.map_cons, List.sum_cons] at ih ⊢
    rw [ih]; rfl

/-- Without a parenthesised key of the table at its head, `c :: cs` has the occurrences
of `cs`. -/
theorem sumOcc_cons_of_none (tbl : List (Char × Char)) (c : Char) (cs : JsString)
    (h : matchKey tbl (c :: cs) = none) : sumOcc tbl (c :: cs) = sumOcc tbl cs := by
  unfold sumOcc
  congr 1
  apply List.map_congr_left
  intro e he
  have : (parenPattern e.1).isPrefixOf (c :: cs) = false := by
    rw [Bool.eq_false_iff, ne_eq, List.isPrefixOf_iff_prefix, paren_prefix_iff]
    rintro ⟨t, ht⟩
    have hl : tbl.lookup e.1 ≠ none := lookup_ne_none_of_mem tbl e.1 e.2 he
    cases hx : tbl.lookup e.1 with
    | none => exact hl hx
    | some x =>
      have := (matchKey_eq_some_iff tbl (c :: cs) x).2 ⟨e.1, t, ht, hx⟩
      rw [h] at this
      cases this
  simp [countOcc, this]

/-- With a parenthesised vowel at its head, the string has one occurrence more than what
follows the vowel. -/
theorem sumOcc_vowels_hit (key m : Char) (rest : JsString) (h : vowels.lookup key = some m) :
    sumOcc vowels ('(' :: key :: ')' :: rest) = 1 + sumOcc vowels rest := by
  have hk := (vowels_entry key m h).1
  have h1 : sumOcc vowels (key :: ')' :: rest) = sumOcc vowels rest := by
    rw [sumOcc_of_head_ne _ _ _ hk, sumOcc_of_head_ne _ _ _ (by decide)]
  rw [← h1]
  have hmem := mem_of_lookup_eq_some _ _ _ h
  simp only [vowels, List.mem_cons, Prod.mk.injEq, List.mem_singleton, List.not_mem_nil,
    or_false] at hmem
  rcases hmem with ⟨rfl, rfl⟩ | ⟨rfl, rfl⟩ | ⟨rfl, rfl⟩ | ⟨rfl, rfl⟩ | ⟨rfl, rfl⟩ |
    ⟨rfl, rfl⟩ | ⟨rfl, rfl⟩ | ⟨rfl, rfl⟩ | ⟨rfl, rfl⟩ | ⟨rfl, rfl⟩ <;>
  · simp [sumOcc, vowels, countOcc, parenPattern, List.isPrefixOf]
    omega

/-- Every parenthesised vowel shortens the text by 2. -/
theorem length_scan_vowels : ∀ (n : Nat) (s : JsString), s.length ≤ n →
    (scan vowels s).length + 2 * sumOcc vowels s = s.length := by
  intro n
  induction n with
  | zero =>
    intro s hs
    have : s = [] := List.length_eq_zero.1 (Nat.le_zero.1 hs)
    subst this
    simp [scan_nil, sumOcc_nil]
  | succ n ih =>
    intro s hs
    cases s with
    | nil => simp [scan_nil, sumOcc_nil]
    | cons c cs =>
      cases hm : matchKey vowels (c :: cs) with
      | none =>
        rw [scan_cons_of_none _ _ _ hm, sumOcc_cons_of_none _ _ _ hm]
        have := ih cs (by simpa using hs)
        simp only [List.length_cons]
        omega
      | some m =>
        obtain ⟨key, rest, hshape, hl⟩ := (matchKey_eq_some_iff _ _ _).1 hm
        rw [hshape] at hs ⊢
        rw [scan_hit _ _ _ _ hl, sumOcc_vowels_hit key m rest hl]
        have := ih rest (by simp only [List.length_cons] at hs; omega)
        simp only [List.length_cons]
        omega

theorem length_macronText (s : JsString) :
    (macronText s).length + 2 * sumOcc vowels s = s.length := by
  rw [macronText_eq, List.length_map]
  exact length_scan_vowels s.length s le_rfl

/-! ## The capital pass, character by character -/

theorem capitalChar_cases (c : Char) :
    capitalChar c = c ∨ capitalChar c ∈ ['ā', 'ē', 'ī', 'ō', 'ū'] := by
  by_cases hA : c = 'A'
  · subst hA; exact Or.inr (by decide)
  by_cases hE : c = 'E'
  · subst hE; exact Or.inr (by decide)
  by_cases hI : c = 'I'
  · subst hI; exact Or.inr (by decide)
  by_cases hO : c = 'O'
  · subst hO; exact Or.inr (by decide)
  by_cases hU : c = 'U'
  · subst hU; exact Or.inr (by decide)
  left
  simp [capitalChar, capitalToMacron, hA, hE, hI, hO, hU]

theorem capitalChar_idem (c : Char) : capitalChar (capitalChar c) = capitalChar c := by
  rcases capitalChar_cases c with h | h
  · rw [h, h]
  · simp only [List.mem_cons, List.mem_singleton, List.not_mem_nil, or_false] at h
    rcases h with h | h | h | h | h <;> rw [h] <;> decide

/-- The capital pass produces a character other than the five lower-case macrons only
from itself. -/
theorem eq_of_capitalChar_eq (c d : Char) (hd : d ∉ ['ā', 'ē', 'ī', 'ō', 'ū'])
    (h : capitalChar c = d) : c = d := by
  rcases capitalChar_cases c with h1 | h1
  · rw [← h1, h]
  · rw [h] at h1; exact absurd h1 hd

theorem vowels_lookup_of_mem (e : Char × Char) (h : e ∈ vowels) :
    vowels.lookup e.1 = some e.2 := by
  simp only [vowels, List.mem_cons, List.mem_singleton, List.not_mem_nil, or_false] at h
  rcases h with rfl | rfl | rfl | rfl | rfl | rfl | rfl | rfl | rfl | rfl <;> decide

/-- A key of `vowels` is not one of its macrons, and not a lower-case macron. -/
theorem vowels_key_not_value (key m : Char) (h : vowels.lookup key = some m) :
    (∀ e ∈ vowels, e.2 ≠ key) ∧ key ∉ ['ā', 'ē', 'ī', 'ō', 'ū'] := by
  constructor
  · intro e he heq
    have h1 := vowels_lookup_of_mem e he
    have h2 := (vowels_entry e.1 e.2 h1).2.2.2.2.2.2
    rw [heq, h] at h2
    cases h2
  · have hmem := mem_of_lookup_eq_some _ _ _ h
    simp only [vowels, List.mem_cons, Prod.mk.injEq, List.mem_singleton, List.not_mem_nil,
      or_false] at hmem
    rcases hmem with ⟨rfl, rfl⟩ | ⟨rfl, rfl⟩ | ⟨rfl, rfl⟩ | ⟨rfl, rfl⟩ | ⟨rfl, rfl⟩ |
      ⟨rfl, rfl⟩ | ⟨rfl, rfl⟩ | ⟨rfl, rfl⟩ | ⟨rfl, rfl⟩ | ⟨rfl, rfl⟩ <;> decide

/-! ## The text is stable -/

/-- A second scan finds nothing to replace in the text. -/
theorem scan_macronText : ∀ (n : Nat) (s : JsString), s.length ≤ n →
    scan vowels ((scan vowels s).map capitalChar) = (scan vowels s).map capitalChar := by
  intro n
  induction n with
  | zero =>
    intro s hs
    have : s = [] := List.length_eq_zero.1 (Nat.le_zero.1 hs)
    subst this
    rfl
  | succ n ih =>
    intro s hs
    cases s with
    | nil => rfl
    | cons c cs =>
      cases hm : matchKey vowels (c :: cs) with
      | some m =>
        obtain ⟨key, rest, hshape, hl⟩ := (matchKey_eq_some_iff _ _ _).1 hm
        obtain ⟨_, _, hm1, _, hm2, _, _⟩ := vowels_entry key m hl
        rw [hshape] at hs ⊢
        rw [scan_hit _ _ _ _ hl, List.map_cons, hm2,
          scan_cons_of_none _ _ _ (matchKey_of_ne_paren _ _ _ hm1),
          ih rest (by simp only [List.length_cons] at hs; omega)]
      | none =>
        rw [scan_cons_of_none _ _ _ hm, List.map_cons]
        have hnone : matchKey vowels
            (capitalChar c :: (scan vowels cs).map capitalChar) = none := by
          cases hx : matchKey vowels (capitalChar c :: (scan vowels cs).map capitalChar) with
          | none => rfl
          | some x =>
            exfalso
            obtain ⟨key, rest, hshape, hl⟩ := (matchKey_eq_some_iff _ _ _).1 hx
            simp only [List.cons.injEq] at hshape
            obtain ⟨hc, hY⟩ := hshape
            obtain ⟨x1, Z1, hscan1, hx1, hZ1⟩ := List.map_eq_cons_iff.1 hY
            obtain ⟨x2, Z2, hscan2, hx2, _⟩ := List.map_eq_cons_iff.1 hZ1
            obtain ⟨hval, hkm⟩ := vowels_key_not_value key x hl
            have e0 : c = '(' := eq_of_capitalChar_eq c '(' (by decide) hc
            have e1 : x1 = key := eq_of_capitalChar_eq x1 key hkm hx1
            have e2 : x2 = ')' := eq_of_capitalChar_eq x2 ')' (by decide) hx2
            subst e0 e1 e2
            obtain ⟨r1, hr1, hs1⟩ := scan_head vowels cs x1 Z1 hval hscan1
            obtain ⟨r2, hr2, _⟩ := scan_head vowels r1 ')' Z2 (by decide) (hscan2 ▸ hs1)
            have : matchKey vowels ('(' :: cs) = some x :=
              (matchKey_eq_some_iff _ _ _).2 ⟨x1, r2, by rw [hr1, hr2], hl⟩
            rw [hm] at this
            cases this
        rw [scan_cons_of_none _ _ _ hnone, ih cs (by simpa using hs)]

/-- The text of the listener is left as it is by the two passes. -/
theorem macronText_idem (s : JsString) : macronText (macronText s) = macronText s := by
  have h1 : macronText s = (scan vowels s).map capitalChar := macronText_eq s
  have h2 : macronText ((scan vowels s).map capitalChar)
      = (scan vowels ((scan vowels s).map capitalChar)).map capitalChar := macronText_eq _
  have h3 := scan_macronText s.length s le_rfl
  rw [h1, h2, h3, List.map_map]
  apply List.map_congr_left
  intro c _
  rw [Function.comp_apply]
  exact capitalChar_idem c

/-! ## The text of a concatenation -/

theorem macronText_paren (key m : Char) (p s : JsString) (h : vowels.lookup key = some m) :
    macronText (p ++ '(' :: key :: ')' :: s) = macronText p ++ m :: macronText s := by
  obtain ⟨hk, _, _, _, hm2, _, _⟩ := vowels_entry key m h
  rw [macronText_eq, macronText_eq, macronText_eq,
    scan_append vowels p.length p ('(' :: key :: ')' :: s) le_rfl, scan_hit _ _ _ _ h,
    List.map_append, List.map_cons, hm2]
  intro k2 m2 h2
  refine ⟨fun p1 q1 _ hq => ?_, fun p1 q1 _ hq => ?_⟩
  · simp only [List.cons.injEq] at hq
    exact absurd hq.1 (by decide)
  · simp only [List.cons.injEq] at hq
    exact (vowels_entry k2 m2 h2).1 hq.1.symm

/-- The text of a string cut at an index that does not lie strictly inside a
parenthesised vowel is the text of the first part followed by the text of the second. -/
theorem macronText_take_drop (value : JsString) (start : Nat) (hle : start ≤ value.length)
    (hin : ∀ i key, key ∈ vowels.map Prod.fst → parenPattern key <+: value.drop i →
      ¬ (i < start ∧ start < i + 3)) :
    macronText value = macronText (value.take start) ++ macronText (value.drop start) := by
  have hlen : (value.take start).length = start := by
    rw [List.length_take]; omega
  rw [macronText_eq, macronText_eq, macronText_eq, ← List.map_append,
    ← scan_append vowels _ (value.take start) (value.drop start) le_rfl,
    List.take_append_drop]
  intro key m hl
  have hkey : key ∈ vowels.map Prod.fst :=
    List.mem_map.2 ⟨(key, m), mem_of_lookup_eq_some _ _ _ hl, rfl⟩
  refine ⟨fun p1 q1 hp hq => ?_, fun p1 q1 hp hq => ?_⟩
  · have hv : value = p1 ++ '(' :: key :: ')' :: q1 := by
      rw [← List.take_append_drop start value, hp, hq]; simp
    have hlen1 : p1.length + 2 = start := by
      rw [← hlen, hp]; simp
    refine hin p1.length key hkey ?_ ⟨by omega, by omega⟩
    rw [hv, List.drop_left]
    exact ⟨q1, rfl⟩
  · have hv : value = p1 ++ '(' :: key :: ')' :: q1 := by
      rw [← List.take_append_drop start value, hp, hq]; simp
    have hlen1 : p1.length + 1 = start := by
      rw [← hlen, hp]; simp
    refine hin p1.length key hkey ?_ ⟨by omega, by omega⟩
    rw [hv, List.drop_left]
    exact ⟨q1, rfl⟩

/-! ## The claims about the macron input -/

/-- C3. For each of the ten letters of `vowels` with its macron `m`, and for all strings
`p` and `s`, the text the listener makes of `p ++ "(" ++ key ++ ")" ++ s` is the text it
makes of `p`, then `m`, then the text it makes of `s`, wherever the cursors are. -/
theorem paren_vowel_text (key m : Char) (p s : JsString) (c c1 c2 : Nat)
    (h : (key, m) ∈ vowels) :
    ∃ r rp rs, addMacronSupport (p ++ parenPattern key ++ s) c = some r ∧
      addMacronSupport p c1 = some rp ∧ addMacronSupport s c2 = some rs ∧
      r.text = rp.text ++ [m] ++ rs.text := by
  have hl := vowels_lookup_of_mem (key, m) h
  refine ⟨_, _, _, addMacronSupport_eq _ c, addMacronSupport_eq p c1, addMacronSupport_eq s c2, ?_⟩
  dsimp only
  have e : p ++ parenPattern key ++ s = p ++ '(' :: key :: ')' :: s := by
    simp [parenPattern]
  rw [e, macronText_paren key m p s hl]
  simp

/-- Witness for C3: "(A)" becomes "Ā" between the texts of "ros" and of "A(e)", in which the
bare "A" becomes "ā". -/
theorem paren_vowel_text_witness :
    ∃ r rp rs, addMacronSupport ("ros".toList ++ parenPattern 'A' ++ "A(e)".toList) 5 = some r ∧
      addMacronSupport "ros".toList 0 = some rp ∧
      addMacronSupport "A(e)".toList 0 = some rs ∧
      r.text = rp.text ++ ['Ā'] ++ rs.text :=
  paren_vowel_text 'A' 'Ā' "ros".toList "A(e)".toList 5 0 0 (by decide)

/-- C2. The text the listener produces is left unchanged by the listener: run on its own
output, with any cursor, it returns the same text (and leaves the cursor where it is). -/
theorem transliteration_idempotent (value : JsString) (c c1 : Nat) :
    ∃ r, addMacronSupport value c = some r ∧
      addMacronSupport r.text c1 = some ⟨r.text, (c1 : Int)⟩ := by
  refine ⟨_, addMacronSupport_eq value c, ?_⟩
  dsimp only
  rw [addMacronSupport_eq, macronText_idem]
  simp

/-- The anchoring of the cursor, for a cursor that does not lie strictly inside a
parenthesised vowel. -/
theorem anchoring_of_not_inside (value : JsString) (start c1 : Nat)
    (hle : start ≤ value.length)
    (hin : ∀ i key, key ∈ vowels.map Prod.fst → parenPattern key <+: value.drop i →
      ¬ (i < start ∧ start < i + 3)) :
    ∃ r rp, addMacronSupport value start = some r ∧
      addMacronSupport (value.take start) c1 = some rp ∧
      0 ≤ r.cursor ∧ r.text.take r.cursor.toNat = rp.text ∧
      (start = value.length → r.cursor = (r.text.length : Int)) := by
  have hsplit := macronText_take_drop value start hle hin
  have hlen : (value.take start).length = start := by
    rw [List.length_take]; omega
  have hlenp := length_macronText (value.take start)
  have hlenq := length_macronText (value.drop start)
  have hlenv : value.length = (value.take start).length + (value.drop start).length := by
    rw [← List.length_append, List.take_append_drop]
  -- in both branches the cursor is the length of the text of the first part
  have hcursor : (if macronText value ≠ value then
        max 0 ((start : Int) - 2 * (sumOcc vowels (value.take start) : Nat))
      else (start : Int)) = ((macronText (value.take start)).length : Int) := by
    by_cases hchg : macronText value = value
    · rw [if_neg (not_not.2 hchg)]
      have := congrArg List.length hsplit
      rw [hchg, List.length_append] at this
      omega
    · rw [if_pos hchg]
      omega
  refine ⟨_, _, addMacronSupport_eq value start, addMacronSupport_eq _ c1, ?_, ?_, ?_⟩
  · dsimp only
    rw [hcursor]
    exact Int.natCast_nonneg _
  · dsimp only
    rw [hcursor, Int.toNat_natCast, hsplit, List.take_left]
  · intro hend
    dsimp only
    rw [hcursor, hend, List.take_length]

/-- C1. When the cursor `start` is at most the length of the input and does not lie
strictly inside an occurrence of a parenthesised vowel, the listener returns a text and a
cursor such that the first `cursor` characters of the text are the text it makes of the
first `start` characters of the input alone.  In particular, with the cursor at the end of
the input, the returned cursor is the length of the returned text. -/
theorem cursor_anchoring (value : JsString) (start c1 : Nat) (hle : start ≤ value.length) :
    ((∀ i key, key ∈ vowels.map Prod.fst → parenPattern key <+: value.drop i →
        ¬ (i < start ∧ start < i + 3)) →
      ∃ r rp, addMacronSupport value start = some r ∧
        addMacronSupport (value.take start) c1 = some rp ∧
        0 ≤ r.cursor ∧ r.text.take r.cursor.toNat = rp.text) ∧
    (start = value.length →
      ∃ r, addMacronSupport value start = some r ∧ r.cursor = (r.text.length : Int)) := by
  constructor
  · intro hin
    obtain ⟨r, rp, h1, h2, h3, h4, _⟩ := anchoring_of_not_inside value start c1 hle hin
    exact ⟨r, rp, h1, h2, h3, h4⟩
  · intro hend
    have hin : ∀ i key, key ∈ vowels.map Prod.fst → parenPattern key <+: value.drop i →
        ¬ (i < start ∧ start < i + 3) := by
      intro i key _ hpre hi
      have h1 := hpre.length_le
      rw [List.length_drop] at h1
      have h2 : (parenPattern key).length = 3 := rfl
      omega
    obtain ⟨r, _, h1, _, _, _, h5⟩ := anchoring_of_not_inside value start c1 hle hin
    exact ⟨r, h1, h5 hend⟩

/-- Witness for C1: "(a)(e)x" with the cursor between the two patterns, and the examples
of the specification, with the cursor at the end. -/
theorem cursor_anchoring_witness :
    (∃ r rp, addMacronSupport "(a)(e)x".toList 3 = some r ∧
      addMacronSupport ("(a)(e)x".toList.take 3) 0 = some rp ∧
      0 ≤ r.cursor ∧ r.text.take r.cursor.toNat = rp.text) ∧
    (∃ r, addMacronSupport "(a)(e)".toList 6 = some r ∧ r.cursor = (r.text.length : Int)) ∧
    addMacronSupport "(a)".toList 3 = some ⟨"ā".toList, 1⟩ ∧
    addMacronSupport "(a)(e)".toList 6 = some ⟨"āē".toList, 2⟩ ∧
    addMacronSupport "rosA".toList 4 = some ⟨"rosā".toList, 4⟩ :=
  ⟨(cursor_anchoring "(a)(e)x".toList 3 0 (by decide)).1 (by
      intro i key hkey hpre hi
      obtain ⟨h1, h2⟩ := hi
      have hcases : i = 1 ∨ i = 2 := by omega
      rw [paren_prefix_iff] at hpre
      obtain ⟨rest, hrest⟩ := hpre
      rcases hcases with rfl | rfl
      · have : ("(a)(e)x".toList.drop 1).head? = some 'a' := by decide
        rw [hrest] at this
        cases this
      · have : ("(a)(e)x".toList.drop 2).head? = some ')' := by decide
        rw [hrest] at this
        cases this),
   (cursor_anchoring "(a)(e)".toList 6 0 (by decide)).2 (by decide),
   by decide, by decide, by decide⟩

end LatinTrainer
